import Mathlib

/-!
Verification development for the weval partial evaluator core
(`src/state.rs`, `src/image.rs`, `src/dce.rs`).

The Rust code is shallowly embedded: entity references (waffle `Value`,
`Block`, `Context`, walrus `GlobalId`, `MemoryId`) become `Nat`; the ordered
maps (`BTreeMap`, dedup `HashMap`) become association lists `List (K × V)`
iterated in list order; machine integers become `Nat`/`Int`.  Functions keep
the source names where Lean allows.
-/

set_option autoImplicit false

namespace Weval

/-! ### Association-list maps

`BTreeMap`/`FxHashMap` are embedded as association lists.  `lookupA` finds the
value at the first matching key; well-formed maps have `Nodup` keys.
-/

def lookupA {K V : Type} [DecidableEq K] : List (K × V) → K → Option V
  | [], _ => none
  | (k, v) :: rest, q => if k = q then some v else lookupA rest q

def containsA {K V : Type} [DecidableEq K] (m : List (K × V)) (q : K) : Bool :=
  (lookupA m q).isSome

def removeA {K V : Type} [DecidableEq K] : List (K × V) → K → List (K × V)
  | [], _ => []
  | (k, v) :: rest, q => if k = q then removeA rest q else (k, v) :: removeA rest q

theorem lookupA_nil {K V : Type} [DecidableEq K] (q : K) :
    lookupA ([] : List (K × V)) q = none := rfl

theorem lookupA_cons {K V : Type} [DecidableEq K] (k : K) (v : V) (rest : List (K × V)) (q : K) :
    lookupA ((k, v) :: rest) q = if k = q then some v else lookupA rest q := rfl

theorem removeA_of_not_contains {K V : Type} [DecidableEq K]
    (m : List (K × V)) (q : K) (h : lookupA m q = none) : removeA m q = m := by
  induction m with
  | nil => rfl
  | cons kv rest ih =>
    obtain ⟨k, v⟩ := kv
    rw [lookupA_cons] at h
    by_cases hk : k = q
    · simp [hk] at h
    · simp only [removeA, if_neg hk]
      rw [ih (by simpa [hk] using h)]

/-! ### Wasm types and values

`waffle::Type` and the `WasmVal` of `src/value.rs`.  `src/value.rs` is not
among the provided sources; `WasmVal` is modelled from the spec as the four
Wasm scalar shapes.
-/

inductive WType : Type where
  | i32 | i64 | f32 | f64 | v128 | funcref | externref
deriving DecidableEq

/-- Modelled from the spec: `WasmVal` from `src/value.rs` (file not provided);
a statically known Wasm constant value. -/
inductive WasmVal : Type where
  | I32 (v : Nat)
  | I64 (v : Nat)
  | F32 (bits : Nat)
  | F64 (bits : Nat)
deriving DecidableEq

/-- Modelled from the spec: `AbstractValue` from `src/value.rs` (file not
provided).  The spec requires at minimum a known-constant variant and an
opaque/runtime variant carrying metadata tags; `state.rs` constructs
`AbstractValue::Runtime(None, ValueTags::default())`, so `Runtime` carries an
optional source value and a tag word (`0` = no tags). -/
inductive AbstractValue : Type where
  | Concrete (v : WasmVal) (tags : Nat)
  | Runtime (source : Option Nat) (tags : Nat)
deriving DecidableEq

/-- Modelled from the spec: `AbstractValue::meet` (in the missing
`src/value.rs`): meeting a value with itself yields itself, merging two
different values degrades to the opaque/runtime value with no tags. -/
def AbstractValue.meet (a b : AbstractValue) : AbstractValue :=
  if a = b then a else AbstractValue.Runtime none 0

/-! ### `SymbolicAddr` and `MemValue` (`src/state.rs`) -/

structure SymbolicAddr : Type where
  token : Nat
  element_ty : WType
  offset : Int
deriving DecidableEq

def SymbolicAddr.add_offset (s : SymbolicAddr) (off : Int) : SymbolicAddr :=
  { token := s.token, element_ty := s.element_ty, offset := s.offset + off }

def SymbolicAddr.sub_offset (s : SymbolicAddr) (off : Int) : SymbolicAddr :=
  { token := s.token, element_ty := s.element_ty, offset := s.offset - off }

inductive MemValue : Type where
  | Value (data : Nat) (ty : WType) (addr : Nat) (dirty : Bool) (abs : AbstractValue)
  | TypedMerge (ty : WType) (abs : AbstractValue)
  | Flushed (ty : WType) (addr : Nat)
  | Conflict
deriving DecidableEq

/-- `MemValue::meet` from `src/state.rs`: first guard arm `a == b`, then the
same-type `Value`/`Value` arm, then the `TypedMerge`/`Value` or-pattern arm
(in both orientations the `TypedMerge` abstract value is the first `meet`
argument), and a catch-all to `Conflict`. -/
def MemValue.meet (a b : MemValue) : MemValue :=
  if a = b then a
  else
    match a, b with
    | MemValue.Value _ ty1 _ _ abs1, MemValue.Value _ ty2 _ _ abs2 =>
      if ty1 = ty2 then MemValue.TypedMerge ty1 (AbstractValue.meet abs1 abs2)
      else MemValue.Conflict
    | MemValue.TypedMerge ty abs, MemValue.Value _ ty1 _ _ abs1 =>
      if ty = ty1 then MemValue.TypedMerge ty (AbstractValue.meet abs abs1)
      else MemValue.Conflict
    | MemValue.Value _ ty1 _ _ abs1, MemValue.TypedMerge ty abs =>
      if ty = ty1 then MemValue.TypedMerge ty (AbstractValue.meet abs abs1)
      else MemValue.Conflict
    | _, _ => MemValue.Conflict

def MemValue.to_addr_and_value : MemValue → Option (Nat × Nat)
  | MemValue.Value data _ addr _ _ => some (addr, data)
  | _ => none

def MemValue.to_type : MemValue → Option WType
  | MemValue.Value _ ty _ _ _ => some ty
  | MemValue.TypedMerge ty _ => some ty
  | _ => none

/-! ### `map_meet_with` and `ProgPointState` (`src/state.rs`)

`map_meet_with` mutates `this` in place in three steps: a first loop over
`this` meeting shared keys (with keys absent from `other` set to `bot` or
queued for removal), the removals, and a second loop over `other`'s keys that
inserts `bot` for (or no-op-removes) keys absent from the evolving map.
`mmwFirst` is the first loop with the removals fused in; `mmwSecond` is the
second loop.
-/

def mmwFirst {K V : Type} [DecidableEq K] [DecidableEq V] (meet : V → V → V) (bot : Option V)
    (other : List (K × V)) : List (K × V) → List (K × V) × Bool
  | [] => ([], false)
  | (k, v) :: rest =>
    let tl := mmwFirst meet bot other rest
    match lookupA other k with
    | some ov =>
      let met := meet v ov
      ((k, met) :: tl.1, (decide (met ≠ v) || tl.2))
    | none =>
      match bot with
      | some b => ((k, b) :: tl.1, (decide (v ≠ b) || tl.2))
      | none => (tl.1, true)

def mmwSecond {K V : Type} [DecidableEq K] (bot : Option V) :
    List K → List (K × V) × Bool → List (K × V) × Bool
  | [], st => st
  | k :: ks, st =>
    if containsA st.1 k then mmwSecond bot ks st
    else
      match bot with
      | some b => mmwSecond bot ks (st.1 ++ [(k, b)], true)
      | none => mmwSecond bot ks (removeA st.1 k, true)

def map_meet_with {K V : Type} [DecidableEq K] [DecidableEq V] (meet : V → V → V)
    (bot : Option V) (m other : List (K × V)) : List (K × V) × Bool :=
  mmwSecond bot (other.map Prod.fst) (mmwFirst meet bot other m)

structure ProgPointState : Type where
  mem_overlay : List (SymbolicAddr × MemValue)
  globals : List (Nat × AbstractValue)
deriving DecidableEq

def ProgPointState.meet_with (s other : ProgPointState) : ProgPointState × Bool :=
  let ov := map_meet_with MemValue.meet none s.mem_overlay other.mem_overlay
  let gl := map_meet_with AbstractValue.meet (some (AbstractValue.Runtime none 0))
    s.globals other.globals
  (⟨ov.1, gl.1⟩, ov.2 || gl.2)

def ProgPointState.update_across_edge (s : ProgPointState) : ProgPointState :=
  { s with
    mem_overlay := s.mem_overlay.map (fun kv =>
      match kv.2 with
      | MemValue.Value _ ty _ _ abs => (kv.1, MemValue.TypedMerge ty abs)
      | v => (kv.1, v)) }

/-- C2 counterexample: the claim says two `Value` cells with the same `ty`
always meet to `TypedMerge`, and also that `meet x x = x`; but for two equal
`Value` cells the first guard arm of `MemValue::meet` returns the `Value` cell
itself, which is not a `TypedMerge`. -/
theorem memValue_meet_equal_values_not_typedMerge :
    MemValue.meet (MemValue.Value 0 WType.i32 0 false (AbstractValue.Runtime none 0))
        (MemValue.Value 0 WType.i32 0 false (AbstractValue.Runtime none 0))
      ≠ MemValue.TypedMerge WType.i32
          (AbstractValue.meet (AbstractValue.Runtime none 0) (AbstractValue.Runtime none 0)) := by
  decide

/-- C2 (amended): for two *distinct* `Value` cells of the same type,
`MemValue::meet` yields `TypedMerge` of the type and the abstract-value meet;
for `Value` cells of different types it yields `Conflict`; and for every
variant `x`, `meet x x = x`. -/
theorem memValue_meet_spec :
    (∀ (d1 a1 : Nat) (dr1 : Bool) (abs1 : AbstractValue) (d2 a2 : Nat) (dr2 : Bool)
        (abs2 : AbstractValue) (ty : WType),
        MemValue.Value d1 ty a1 dr1 abs1 ≠ MemValue.Value d2 ty a2 dr2 abs2 →
        MemValue.meet (MemValue.Value d1 ty a1 dr1 abs1) (MemValue.Value d2 ty a2 dr2 abs2)
          = MemValue.TypedMerge ty (AbstractValue.meet abs1 abs2)) ∧
    (∀ (d1 a1 : Nat) (dr1 : Bool) (abs1 : AbstractValue) (d2 a2 : Nat) (dr2 : Bool)
        (abs2 : AbstractValue) (ty1 ty2 : WType), ty1 ≠ ty2 →
        MemValue.meet (MemValue.Value d1 ty1 a1 dr1 abs1) (MemValue.Value d2 ty2 a2 dr2 abs2)
          = MemValue.Conflict) ∧
    (∀ x : MemValue, MemValue.meet x x = x) := by
  refine ⟨?_, ?_, ?_⟩
  · intro d1 a1 dr1 abs1 d2 a2 dr2 abs2 ty h
    unfold MemValue.meet
    rw [if_neg h]
    simp
  · intro d1 a1 dr1 abs1 d2 a2 dr2 abs2 ty1 ty2 hty
    have hne : MemValue.Value d1 ty1 a1 dr1 abs1 ≠ MemValue.Value d2 ty2 a2 dr2 abs2 := by
      intro hc
      injection hc with h1 h2 h3 h4 h5
      exact hty h2
    unfold MemValue.meet
    rw [if_neg hne]
    simp [hty]
  · intro x
    unfold MemValue.meet
    rw [if_pos rfl]

/-- C2 witness: the amended theorem applied to two distinct `i32` `Value`
cells. -/
theorem memValue_meet_spec_witness :
    MemValue.meet (MemValue.Value 0 WType.i32 0 false (AbstractValue.Runtime none 0))
        (MemValue.Value 1 WType.i32 0 false (AbstractValue.Runtime none 0))
      = MemValue.TypedMerge WType.i32
          (AbstractValue.meet (AbstractValue.Runtime none 0) (AbstractValue.Runtime none 0)) :=
  memValue_meet_spec.1 0 0 false (AbstractValue.Runtime none 0) 1 0 false
    (AbstractValue.Runtime none 0) WType.i32 (by decide)

/-! ### Lemmas about association-list lookup -/

theorem lookupA_append {K V : Type} [DecidableEq K] (l1 l2 : List (K × V)) (q : K) :
    lookupA (l1 ++ l2) q =
      (match lookupA l1 q with
       | some v => some v
       | none => lookupA l2 q) := by
  induction l1 with
  | nil => simp [lookupA]
  | cons kv rest ih =>
    obtain ⟨k, v⟩ := kv
    by_cases hk : k = q
    · simp [lookupA_cons, hk]
    · simp [lookupA_cons, hk, ih]

theorem lookupA_eq_none_iff {K V : Type} [DecidableEq K] (m : List (K × V)) (q : K) :
    lookupA m q = none ↔ q ∉ m.map Prod.fst := by
  induction m with
  | nil => simp [lookupA]
  | cons kv rest ih =>
    obtain ⟨k, v⟩ := kv
    by_cases hk : k = q
    · simp [lookupA_cons, hk]
    · simp only [lookupA_cons, if_neg hk, List.map_cons, List.mem_cons]
      rw [ih]
      constructor
      · intro h hq
        rcases hq with hq | hq
        · exact hk hq.symm
        · exact h hq
      · intro h hq
        exact h (Or.inr hq)

theorem lookupA_mem_of_some {K V : Type} [DecidableEq K] {m : List (K × V)} {q : K} {v : V}
    (h : lookupA m q = some v) : q ∈ m.map Prod.fst := by
  by_contra hq
  rw [(lookupA_eq_none_iff m q).2 hq] at h
  cases h

theorem lookupA_eq_none_of_containsA_false {K V : Type} [DecidableEq K]
    {m : List (K × V)} {q : K} (h : containsA m q = false) : lookupA m q = none := by
  unfold containsA at h
  cases hl : lookupA m q with
  | none => rfl
  | some v => rw [hl] at h; cases h

theorem containsA_eq_false_of_lookupA_none {K V : Type} [DecidableEq K]
    {m : List (K × V)} {q : K} (h : lookupA m q = none) : containsA m q = false := by
  unfold containsA
  rw [h]
  rfl

/-! ### Lemmas about `mmwFirst` -/

theorem mmwFirst_length_le {K V : Type} [DecidableEq K] [DecidableEq V]
    (meet : V → V → V) (bot : Option V) (other m : List (K × V)) :
    (mmwFirst meet bot other m).1.length ≤ m.length := by
  induction m with
  | nil => simp [mmwFirst]
  | cons kv rest ih =>
    obtain ⟨k, v⟩ := kv
    cases hok : lookupA other k with
    | some ov =>
      simp only [mmwFirst, hok, List.length_cons]
      omega
    | none =>
      cases bot with
      | some b =>
        simp only [mmwFirst, hok, List.length_cons]
        omega
      | none =>
        simp only [mmwFirst, hok, List.length_cons]
        omega

theorem mmwFirst_lookup_none_of_none {K V : Type} [DecidableEq K] [DecidableEq V]
    (meet : V → V → V) (bot : Option V) (other : List (K × V)) {m : List (K × V)} {q : K}
    (h : lookupA m q = none) : lookupA (mmwFirst meet bot other m).1 q = none := by
  induction m with
  | nil => simp [mmwFirst, lookupA]
  | cons kv rest ih =>
    obtain ⟨k, v⟩ := kv
    rw [lookupA_cons] at h
    by_cases hk : k = q
    · simp [hk] at h
    · have h2 : lookupA rest q = none := by simpa [hk] using h
      cases hok : lookupA other k with
      | some ov => simp [mmwFirst, hok, lookupA_cons, hk, ih h2]
      | none =>
        cases bot with
        | some b => simp [mmwFirst, hok, lookupA_cons, hk, ih h2]
        | none => simp [mmwFirst, hok, ih h2]

theorem mmwFirst_keys_some {K V : Type} [DecidableEq K] [DecidableEq V]
    (meet : V → V → V) (b : V) (other m : List (K × V)) :
    (mmwFirst meet (some b) other m).1.map Prod.fst = m.map Prod.fst := by
  induction m with
  | nil => simp [mmwFirst]
  | cons kv rest ih =>
    obtain ⟨k, v⟩ := kv
    cases hok : lookupA other k with
    | some ov => simp [mmwFirst, hok, ih]
    | none => simp [mmwFirst, hok, ih]

theorem mmwFirst_lookup_nonebot {K V : Type} [DecidableEq K] [DecidableEq V]
    (meet : V → V → V) (other : List (K × V)) {m : List (K × V)}
    (hm : (m.map Prod.fst).Nodup) (q : K) :
    lookupA (mmwFirst meet none other m).1 q =
      (match lookupA m q, lookupA other q with
       | some v, some w => some (meet v w)
       | _, _ => none) := by
  induction m with
  | nil => cases lookupA other q <;> simp [mmwFirst, lookupA]
  | cons kv rest ih =>
    obtain ⟨k, v⟩ := kv
    simp only [List.map_cons, List.nodup_cons] at hm
    obtain ⟨hknot, hmrest⟩ := hm
    by_cases hk : k = q
    · subst hk
      cases hok : lookupA other k with
      | some ov => simp [mmwFirst, hok, lookupA_cons]
      | none =>
        have hrest : lookupA rest k = none := (lookupA_eq_none_iff rest k).2 hknot
        simp [mmwFirst, hok, lookupA_cons,
          mmwFirst_lookup_none_of_none meet none other hrest]
    · cases hok : lookupA other k with
      | some ov => simp [mmwFirst, hok, lookupA_cons, hk, ih hmrest]
      | none => simp [mmwFirst, hok, lookupA_cons, hk, ih hmrest]

theorem mmwFirst_lookup_somebot {K V : Type} [DecidableEq K] [DecidableEq V]
    (meet : V → V → V) (b : V) (other m : List (K × V)) (q : K) :
    lookupA (mmwFirst meet (some b) other m).1 q =
      (match lookupA m q, lookupA other q with
       | some v, some w => some (meet v w)
       | some _, none => some b
       | none, _ => none) := by
  induction m with
  | nil => cases lookupA other q <;> simp [mmwFirst, lookupA]
  | cons kv rest ih =>
    obtain ⟨k, v⟩ := kv
    by_cases hk : k = q
    · subst hk
      cases hok : lookupA other k with
      | some ov => simp [mmwFirst, hok, lookupA_cons]
      | none => simp [mmwFirst, hok, lookupA_cons]
    · cases hok : lookupA other k with
      | some ov => simp [mmwFirst, hok, lookupA_cons, hk, ih]
      | none => simp [mmwFirst, hok, lookupA_cons, hk, ih]

theorem mmwFirst_flag_nonebot_iff {K V : Type} [DecidableEq K] [DecidableEq V]
    (meet : V → V → V) (other m : List (K × V)) :
    (mmwFirst meet none other m).2 = false ↔ (mmwFirst meet none other m).1 = m := by
  induction m with
  | nil => simp [mmwFirst]
  | cons kv rest ih =>
    obtain ⟨k, v⟩ := kv
    cases hok : lookupA other k with
    | some ov =>
      have hunf : mmwFirst meet none other ((k, v) :: rest)
          = ((k, meet v ov) :: (mmwFirst meet none other rest).1,
             decide (meet v ov ≠ v) || (mmwFirst meet none other rest).2) := by
        simp [mmwFirst, hok]
      rw [hunf]
      simp only [Bool.or_eq_false_iff, decide_eq_false_iff_not, not_not]
      constructor
      · rintro ⟨h1, h2⟩
        rw [h1, ih.1 h2]
      · intro hh
        simp only [List.cons.injEq, Prod.mk.injEq] at hh
        obtain ⟨⟨-, h1⟩, h2⟩ := hh
        exact ⟨h1, ih.2 h2⟩
    | none =>
      have hunf : mmwFirst meet none other ((k, v) :: rest)
          = ((mmwFirst meet none other rest).1, true) := by
        simp [mmwFirst, hok]
      rw [hunf]
      simp only [Bool.true_eq_false, false_iff]
      intro hh
      have hlen := mmwFirst_length_le meet none other rest
      rw [hh] at hlen
      simp at hlen

theorem mmwFirst_flag_somebot_iff {K V : Type} [DecidableEq K] [DecidableEq V]
    (meet : V → V → V) (b : V) (other m : List (K × V)) :
    (mmwFirst meet (some b) other m).2 = false ↔ (mmwFirst meet (some b) other m).1 = m := by
  induction m with
  | nil => simp [mmwFirst]
  | cons kv rest ih =>
    obtain ⟨k, v⟩ := kv
    cases hok : lookupA other k with
    | some ov =>
      have hunf : mmwFirst meet (some b) other ((k, v) :: rest)
          = ((k, meet v ov) :: (mmwFirst meet (some b) other rest).1,
             decide (meet v ov ≠ v) || (mmwFirst meet (some b) other rest).2) := by
        simp [mmwFirst, hok]
      rw [hunf]
      simp only [Bool.or_eq_false_iff, decide_eq_false_iff_not, not_not]
      constructor
      · rintro ⟨h1, h2⟩
        rw [h1, ih.1 h2]
      · intro hh
        simp only [List.cons.injEq, Prod.mk.injEq] at hh
        obtain ⟨⟨-, h1⟩, h2⟩ := hh
        exact ⟨h1, ih.2 h2⟩
    | none =>
      have hunf : mmwFirst meet (some b) other ((k, v) :: rest)
          = ((k, b) :: (mmwFirst meet (some b) other rest).1,
             decide (v ≠ b) || (mmwFirst meet (some b) other rest).2) := by
        simp [mmwFirst, hok]
      rw [hunf]
      simp only [Bool.or_eq_false_iff, decide_eq_false_iff_not, not_not]
      constructor
      · rintro ⟨h1, h2⟩
        rw [ih.1 h2, h1]
      · intro hh
        simp only [List.cons.injEq, Prod.mk.injEq] at hh
        obtain ⟨⟨-, h1⟩, h2⟩ := hh
        exact ⟨h1.symm, ih.2 h2⟩

/-! ### Lemmas about `mmwSecond` -/

theorem mmwSecond_flag_mono {K V : Type} [DecidableEq K] (bot : Option V) (ks : List K)
    (st : List (K × V) × Bool) (h : st.2 = true) : (mmwSecond bot ks st).2 = true := by
  induction ks generalizing st with
  | nil => simpa [mmwSecond] using h
  | cons k ks ih =>
    by_cases hc : containsA st.1 k = true
    · rw [show mmwSecond bot (k :: ks) st = mmwSecond bot ks st from by simp [mmwSecond, hc]]
      exact ih st h
    · cases bot with
      | some b =>
        rw [show mmwSecond (some b) (k :: ks) st
            = mmwSecond (some b) ks (st.1 ++ [(k, b)], true) from by simp [mmwSecond, hc]]
        exact ih _ rfl
      | none =>
        rw [show mmwSecond none (k :: ks) st
            = mmwSecond none ks (removeA st.1 k, true) from by simp [mmwSecond, hc]]
        exact ih _ rfl

theorem mmwSecond_none_eq {K V : Type} [DecidableEq K] (ks : List K) (m0 : List (K × V))
    (c : Bool) :
    mmwSecond (none : Option V) ks (m0, c)
      = (m0, c || !(ks.all (fun k => containsA m0 k))) := by
  induction ks generalizing c with
  | nil => simp [mmwSecond]
  | cons k ks ih =>
    by_cases hc : containsA m0 k = true
    · rw [show mmwSecond none (k :: ks) (m0, c) = mmwSecond none ks (m0, c) from by
        simp [mmwSecond, hc]]
      rw [ih]
      simp [hc]
    · have hnone : lookupA m0 k = none :=
        lookupA_eq_none_of_containsA_false (Bool.not_eq_true _ ▸ eq_false_of_ne_true hc)
      rw [show mmwSecond none (k :: ks) (m0, c) = mmwSecond none ks (removeA m0 k, true) from by
        simp [mmwSecond, hc]]
      rw [removeA_of_not_contains m0 k hnone, ih]
      simp [hc]

theorem mmwSecond_some_prefix {K V : Type} [DecidableEq K] (b : V) (ks : List K)
    (m0 : List (K × V)) (c : Bool) :
    ∃ t, (mmwSecond (some b) ks (m0, c)).1 = m0 ++ t := by
  induction ks generalizing m0 c with
  | nil => exact ⟨[], by simp [mmwSecond]⟩
  | cons k ks ih =>
    by_cases hc : containsA m0 k = true
    · rw [show mmwSecond (some b) (k :: ks) (m0, c) = mmwSecond (some b) ks (m0, c) from by
        simp [mmwSecond, hc]]
      exact ih m0 c
    · rw [show mmwSecond (some b) (k :: ks) (m0, c)
          = mmwSecond (some b) ks (m0 ++ [(k, b)], true) from by simp [mmwSecond, hc]]
      obtain ⟨t, ht⟩ := ih (m0 ++ [(k, b)]) true
      exact ⟨[(k, b)] ++ t, by rw [ht, List.append_assoc]⟩

theorem mmwSecond_some_flag_iff {K V : Type} [DecidableEq K] (b : V) (ks : List K)
    (m0 : List (K × V)) (c : Bool) :
    (mmwSecond (some b) ks (m0, c)).2 = false
      ↔ (c = false ∧ ks.all (fun k => containsA m0 k) = true) := by
  induction ks with
  | nil => simp [mmwSecond]
  | cons k ks ih =>
    by_cases hc : containsA m0 k = true
    · rw [show mmwSecond (some b) (k :: ks) (m0, c) = mmwSecond (some b) ks (m0, c) from by
        simp [mmwSecond, hc]]
      rw [ih]
      simp [hc]
    · rw [show mmwSecond (some b) (k :: ks) (m0, c)
          = mmwSecond (some b) ks (m0 ++ [(k, b)], true) from by simp [mmwSecond, hc]]
      have htrue : (mmwSecond (some b) ks (m0 ++ [(k, b)], true)).2 = true :=
        mmwSecond_flag_mono (some b) ks _ rfl
      simp [htrue, hc]

theorem mmwSecond_some_map_of_all {K V : Type} [DecidableEq K] {b : V} {ks : List K}
    {m0 : List (K × V)} {c : Bool} (h : ks.all (fun k => containsA m0 k) = true) :
    (mmwSecond (some b) ks (m0, c)).1 = m0 := by
  induction ks with
  | nil => simp [mmwSecond]
  | cons k ks ih =>
    simp only [List.all_cons, Bool.and_eq_true] at h
    rw [show mmwSecond (some b) (k :: ks) (m0, c) = mmwSecond (some b) ks (m0, c) from by
      simp [mmwSecond, h.1]]
    exact ih h.2

theorem mmwSecond_some_all_of_map {K V : Type} [DecidableEq K] {b : V} {ks : List K}
    {m0 : List (K × V)} {c : Bool} (h : (mmwSecond (some b) ks (m0, c)).1 = m0) :
    ks.all (fun k => containsA m0 k) = true := by
  induction ks with
  | nil => simp
  | cons k ks ih =>
    by_cases hc : containsA m0 k = true
    · rw [show mmwSecond (some b) (k :: ks) (m0, c) = mmwSecond (some b) ks (m0, c) from by
        simp [mmwSecond, hc]] at h
      simp [List.all_cons, hc, ih h]
    · exfalso
      rw [show mmwSecond (some b) (k :: ks) (m0, c)
          = mmwSecond (some b) ks (m0 ++ [(k, b)], true) from by simp [mmwSecond, hc]] at h
      obtain ⟨t, ht⟩ := mmwSecond_some_prefix b ks (m0 ++ [(k, b)]) true
      rw [ht] at h
      have hlen := congrArg List.length h
      simp [List.length_append] at hlen

theorem mmwSecond_some_lookup_mem {K V : Type} [DecidableEq K] (b : V) {ks : List K}
    {m0 : List (K × V)} {q : K} (c : Bool) (hq : q ∈ ks) (hc : containsA m0 q = false) :
    lookupA (mmwSecond (some b) ks (m0, c)).1 q = some b := by
  induction ks generalizing m0 c with
  | nil => cases hq
  | cons k ks ih =>
    by_cases hck : containsA m0 k = true
    · rw [show mmwSecond (some b) (k :: ks) (m0, c) = mmwSecond (some b) ks (m0, c) from by
        simp [mmwSecond, hck]]
      rcases List.mem_cons.1 hq with hq1 | hq2
      · subst hq1
        rw [hck] at hc
        cases hc
      · exact ih c hq2 hc
    · rw [show mmwSecond (some b) (k :: ks) (m0, c)
          = mmwSecond (some b) ks (m0 ++ [(k, b)], true) from by simp [mmwSecond, hck]]
      by_cases hqk : q = k
      · subst hqk
        obtain ⟨t, ht⟩ := mmwSecond_some_prefix b ks (m0 ++ [(q, b)]) true
        rw [ht, List.append_assoc, lookupA_append,
          lookupA_eq_none_of_containsA_false hc]
        simp [lookupA_cons]
      · rcases List.mem_cons.1 hq with hq1 | hq2
        · exact absurd hq1 hqk
        · have hkq : ¬k = q := fun h => hqk h.symm
          have hc2 : containsA (m0 ++ [(k, b)]) q = false := by
            apply containsA_eq_false_of_lookupA_none
            rw [lookupA_append, lookupA_eq_none_of_containsA_false hc]
            simp [lookupA_cons, hkq, lookupA]
          exact ih true hq2 hc2

theorem mmwSecond_some_lookup_none {K V : Type} [DecidableEq K] (b : V) {ks : List K}
    {m0 : List (K × V)} {q : K} (c : Bool) (hm : lookupA m0 q = none) (hq : q ∉ ks) :
    lookupA (mmwSecond (some b) ks (m0, c)).1 q = none := by
  induction ks generalizing m0 c with
  | nil => simpa [mmwSecond] using hm
  | cons k ks ih =>
    have hqk : q ≠ k := fun h => hq (h ▸ List.mem_cons_self k ks)
    have hq2 : q ∉ ks := fun h => hq (List.mem_cons_of_mem k h)
    by_cases hck : containsA m0 k = true
    · rw [show mmwSecond (some b) (k :: ks) (m0, c) = mmwSecond (some b) ks (m0, c) from by
        simp [mmwSecond, hck]]
      exact ih c hm hq2
    · rw [show mmwSecond (some b) (k :: ks) (m0, c)
          = mmwSecond (some b) ks (m0 ++ [(k, b)], true) from by simp [mmwSecond, hck]]
      have hkq : ¬k = q := fun h => hqk h.symm
      apply ih true _ hq2
      rw [lookupA_append, hm]
      simp [lookupA_cons, hkq, lookupA]

/-! ### C3: `ProgPointState::meet_with` -/

def c3Other : ProgPointState :=
  { mem_overlay := [(⟨0, WType.i32, 0⟩, MemValue.Conflict)], globals := [] }

/-- C3 counterexample: merging an overlay that mentions an address absent from
`self` reports `changed = true` (the second loop of `map_meet_with` performs a
no-op removal but still sets the flag) even though `self` is left completely
unchanged, refuting "returns true exactly when some key's merged value in self
differs from that key's prior value" / "returns false whenever self is left
unchanged". -/
theorem progPoint_meet_with_true_without_change :
    (ProgPointState.meet_with ⟨[], []⟩ c3Other).2 = true ∧
      (ProgPointState.meet_with ⟨[], []⟩ c3Other).1 = ⟨[], []⟩ := by
  decide

/-- C3 (amended): `meet_with` merges `other` into `self`: an overlay address
absent from either side is absent from the result, addresses present in both
meet pointwise; a global absent from either side becomes the opaque/runtime
value with no tags, globals present in both meet pointwise.  The returned flag
is `false` exactly when `self` is left unchanged *and* every overlay address of
`other` is already present in `self` (so the flag can be `true` even though
`self` is unchanged). -/
theorem progPointState_meet_with_spec (s other : ProgPointState)
    (h : (s.mem_overlay.map Prod.fst).Nodup) :
    (∀ q, lookupA (ProgPointState.meet_with s other).1.mem_overlay q =
       (match lookupA s.mem_overlay q, lookupA other.mem_overlay q with
        | some v, some w => some (MemValue.meet v w)
        | _, _ => none)) ∧
    (∀ g, lookupA (ProgPointState.meet_with s other).1.globals g =
       (match lookupA s.globals g, lookupA other.globals g with
        | some v, some w => some (AbstractValue.meet v w)
        | some _, none => some (AbstractValue.Runtime none 0)
        | none, some _ => some (AbstractValue.Runtime none 0)
        | none, none => none)) ∧
    ((ProgPointState.meet_with s other).2 = false ↔
       ((ProgPointState.meet_with s other).1 = s ∧
        ∀ k ∈ other.mem_overlay.map Prod.fst, containsA s.mem_overlay k = true)) := by
  obtain ⟨sov, sgl⟩ := s
  obtain ⟨oov, ogl⟩ := other
  have hnd : (sov.map Prod.fst).Nodup := h
  rcases hF : mmwFirst MemValue.meet none oov sov with ⟨F1, F2⟩
  rcases hG : mmwFirst AbstractValue.meet (some (AbstractValue.Runtime none 0)) ogl sgl
    with ⟨G1, G2⟩
  have hmw : ProgPointState.meet_with ⟨sov, sgl⟩ ⟨oov, ogl⟩
      = (⟨(mmwSecond none (oov.map Prod.fst) (F1, F2)).1,
          (mmwSecond (some (AbstractValue.Runtime none 0)) (ogl.map Prod.fst) (G1, G2)).1⟩,
         (mmwSecond none (oov.map Prod.fst) (F1, F2)).2
           || (mmwSecond (some (AbstractValue.Runtime none 0)) (ogl.map Prod.fst) (G1, G2)).2) := by
    simp only [ProgPointState.meet_with, map_meet_with]
    rw [hF, hG]
  rw [hmw, mmwSecond_none_eq]
  have hF1keys : ∀ q, lookupA F1 q =
      (match lookupA sov q, lookupA oov q with
       | some v, some w => some (MemValue.meet v w)
       | _, _ => none) := by
    intro q
    have h0 := mmwFirst_lookup_nonebot MemValue.meet oov hnd q
    rw [hF] at h0
    cases hs : lookupA sov q <;> cases ho : lookupA oov q <;>
      rw [hs, ho] at h0 <;> simpa using h0
  have hG1keys : ∀ g, lookupA G1 g =
      (match lookupA sgl g, lookupA ogl g with
       | some v, some w => some (AbstractValue.meet v w)
       | some _, none => some (AbstractValue.Runtime none 0)
       | none, _ => none) := by
    intro g
    have h0 := mmwFirst_lookup_somebot AbstractValue.meet (AbstractValue.Runtime none 0) ogl sgl g
    rw [hG] at h0
    cases hs : lookupA sgl g <;> cases ho : lookupA ogl g <;>
      rw [hs, ho] at h0 <;> simpa using h0
  refine ⟨?_, ?_, ?_⟩
  · intro q
    simpa using hF1keys q
  · intro g
    cases hsg : lookupA sgl g with
    | some v =>
      obtain ⟨t, ht⟩ :=
        mmwSecond_some_prefix (AbstractValue.Runtime none 0) (ogl.map Prod.fst) G1 G2
      have hg1 := hG1keys g
      rw [hsg] at hg1
      simp only [ht, lookupA_append, hg1]
      cases hog : lookupA ogl g <;> simp [hsg, hog]
    | none =>
      have hg1 : lookupA G1 g = none := by
        have := mmwFirst_lookup_none_of_none AbstractValue.meet
          (some (AbstractValue.Runtime none 0)) ogl (m := sgl) (q := g) hsg
        rw [hG] at this
        exact this
      cases hog : lookupA ogl g with
      | some w =>
        have hmem : g ∈ ogl.map Prod.fst := lookupA_mem_of_some hog
        have := mmwSecond_some_lookup_mem (AbstractValue.Runtime none 0) G2 hmem
          (containsA_eq_false_of_lookupA_none hg1)
        simp only [this, hsg, hog]
      | none =>
        have hnotmem : g ∉ ogl.map Prod.fst := (lookupA_eq_none_iff ogl g).1 hog
        have := mmwSecond_some_lookup_none (AbstractValue.Runtime none 0) G2 hg1 hnotmem
        simp only [this, hsg, hog]
  · have hovflag : F2 = false ↔ F1 = sov := by
      have := mmwFirst_flag_nonebot_iff MemValue.meet oov sov
      rw [hF] at this
      exact this
    have hglflagF : G2 = false ↔ G1 = sgl := by
      have := mmwFirst_flag_somebot_iff AbstractValue.meet (AbstractValue.Runtime none 0) ogl sgl
      rw [hG] at this
      exact this
    have hkeysG : G1.map Prod.fst = sgl.map Prod.fst := by
      have := mmwFirst_keys_some AbstractValue.meet (AbstractValue.Runtime none 0) ogl sgl
      rw [hG] at this
      exact this
    constructor
    · intro hfl
      simp only [Bool.or_eq_false_iff] at hfl
      obtain ⟨hfl1, hfl2⟩ := hfl
      simp only [Bool.or_eq_false_iff, Bool.not_eq_false'] at hfl1
      obtain ⟨hF2, hall⟩ := hfl1
      have hF1 : F1 = sov := hovflag.1 hF2
      obtain ⟨hG2, hallG⟩ := (mmwSecond_some_flag_iff _ _ _ _).1 hfl2
      have hG1 : G1 = sgl := hglflagF.1 hG2
      have hmap : (mmwSecond (some (AbstractValue.Runtime none 0))
          (ogl.map Prod.fst) (G1, G2)).1 = G1 := mmwSecond_some_map_of_all hallG
      have hmapsgl : (mmwSecond (some (AbstractValue.Runtime none 0))
          (ogl.map Prod.fst) (G1, G2)).1 = sgl := by rw [hmap, hG1]
      refine ⟨?_, ?_⟩
      · simp [hmapsgl, hF1]
      · intro k hk
        rw [← hF1]
        exact List.all_eq_true.1 hall k hk
    · rintro ⟨hstate, hall⟩
      simp only [ProgPointState.mk.injEq] at hstate
      obtain ⟨hov1, hgl1⟩ := hstate
      have hF1 : F1 = sov := hov1
      obtain ⟨t, ht⟩ :=
        mmwSecond_some_prefix (AbstractValue.Runtime none 0) (ogl.map Prod.fst) G1 G2
      have hlen : G1.length = sgl.length := by
        have := congrArg List.length hkeysG
        simpa using this
      have htnil : t = [] := by
        have := congrArg List.length (ht.symm.trans hgl1)
        simp only [List.length_append] at this
        have : G1.length + t.length = sgl.length := this
        rw [hlen] at this
        simpa using List.length_eq_zero.1 (by omega)
      have hmapG : (mmwSecond (some (AbstractValue.Runtime none 0))
          (ogl.map Prod.fst) (G1, G2)).1 = G1 := by
        rw [ht, htnil, List.append_nil]
      have hG1 : G1 = sgl := by
        rw [← hmapG, hgl1]
      have hG2 : G2 = false := hglflagF.2 hG1
      have hallG := mmwSecond_some_all_of_map hmapG
      simp only [Bool.or_eq_false_iff, Bool.not_eq_false']
      refine ⟨⟨hovflag.2 hF1, ?_⟩, ?_⟩
      · apply List.all_eq_true.2
        intro k hk
        rw [hF1]
        exact hall k hk
      · exact (mmwSecond_some_flag_iff _ _ _ _).2 ⟨hG2, hallG⟩

/-- C3 witness: the amended theorem applied at a one-entry overlay/globals
state. -/
theorem progPointState_meet_with_spec_witness :
    lookupA (ProgPointState.meet_with
        ⟨[(⟨0, WType.i32, 0⟩, MemValue.Conflict)], [(0, AbstractValue.Runtime none 0)]⟩
        ⟨[(⟨0, WType.i32, 0⟩, MemValue.Conflict)], []⟩).1.mem_overlay ⟨0, WType.i32, 0⟩
      = some (MemValue.meet MemValue.Conflict MemValue.Conflict) := by
  have hs := progPointState_meet_with_spec
    ⟨[(⟨0, WType.i32, 0⟩, MemValue.Conflict)], [(0, AbstractValue.Runtime none 0)]⟩
    ⟨[(⟨0, WType.i32, 0⟩, MemValue.Conflict)], []⟩ (by decide)
  rw [hs.1 ⟨0, WType.i32, 0⟩]
  decide

/-! ### Module image (`src/image.rs`)

The walrus `Module` is modelled with just the pieces `build_image` consults:
globals with their kinds and initializers, memories with their initial page
count and data-segment ids, and the data-segment table.  Bytes are `Nat`s.
-/

inductive InitExpr : Type where
  | Value (v : WasmVal)
  | GlobalRef (g : Nat)
  | RefNull
  | RefFunc (f : Nat)
deriving DecidableEq

inductive GlobalKind : Type where
  | Local (init : InitExpr)
  | Imported (imp : Nat)
deriving DecidableEq

structure GlobalDecl : Type where
  id : Nat
  kind : GlobalKind
deriving DecidableEq

inductive DataLocation : Type where
  | Relative (g : Nat)
  | Absolute (offset : Nat)
deriving DecidableEq

inductive DataKind : Type where
  | Passive
  | Active (memory : Nat) (location : DataLocation)
deriving DecidableEq

structure DataSegment : Type where
  kind : DataKind
  value : List Nat
deriving DecidableEq

structure MemoryDecl : Type where
  id : Nat
  initial : Nat
  data_segments : List Nat
deriving DecidableEq

structure Module : Type where
  memories : List MemoryDecl
  globals : List GlobalDecl
  data : List (Nat × DataSegment)
deriving DecidableEq

structure MemImage : Type where
  image : List Nat
  len : Nat
deriving DecidableEq

structure Image : Type where
  memories : List (Nat × MemImage)
  globals : List (Nat × WasmVal)
  stack_pointer : Option Nat
  main_heap : Option Nat
deriving DecidableEq

/-- The `copy_from_slice` into `image[offset..offset+len]`.  The source panics
when the range is out of bounds; this embedding is total and only coincides
with the source on in-bounds writes. -/
def writeBytes (image : List Nat) (offset : Nat) (value : List Nat) : List Nat :=
  image.take offset ++ value ++ image.drop (offset + value.length)

def maybe_mem_image (m : Module) (mem : MemoryDecl) : Option MemImage :=
  let len := mem.initial * 65536
  let img := mem.data_segments.foldl
    (fun acc sid =>
      match acc with
      | none => none
      | some image =>
        match lookupA m.data sid with
        | none => some image
        | some seg =>
          match seg.kind with
          | DataKind.Passive => some image
          | DataKind.Active _ (DataLocation.Relative _) => none
          | DataKind.Active _ (DataLocation.Absolute off) =>
            some (writeBytes image off seg.value))
    (some (List.replicate len 0))
  img.map (fun image => { image := image, len := len })

/-- `build_image` from `src/image.rs`.  The source returns
`anyhow::Result<Image>` but always `Ok`; the embedding returns the image
directly. -/
def build_image (m : Module) : Image :=
  { memories := m.memories.filterMap
      (fun mem => (maybe_mem_image m mem).map (fun im => (mem.id, im)))
  , globals := m.globals.filterMap
      (fun g =>
        match g.kind with
        | GlobalKind.Local (InitExpr.Value v) => some (g.id, v)
        | _ => none)
  , stack_pointer := m.globals.head?.map GlobalDecl.id
  , main_heap := m.memories.head?.map MemoryDecl.id }

/-- `ProgPointState::entry` from `src/state.rs`: empty overlay; every key of
the image's globals map bound to `Runtime(None, ValueTags::default())`. -/
def ProgPointState.entry (im : Image) : ProgPointState :=
  { mem_overlay := []
  , globals := im.globals.map (fun p => (p.1, AbstractValue.Runtime none 0)) }

/-- C4 counterexample: a module whose only global is imported (its initial
value is not a statically known constant).  `build_image` omits it from the
image's globals map, so the entry state does not map it at all, refuting "maps
every global in the module". -/
theorem entry_missing_imported_global :
    (0 ∈ (Module.mk [] [⟨0, GlobalKind.Imported 0⟩] []).globals.map GlobalDecl.id) ∧
      lookupA (ProgPointState.entry
          (build_image (Module.mk [] [⟨0, GlobalKind.Imported 0⟩] []))).globals 0 = none := by
  decide

/-- C4 (amended): for every module, the entry state has an empty memory
overlay, and its globals map binds exactly the globals captured in the image —
those module globals whose initializer is a constant `Value` — each to the
opaque/runtime abstract value with no tags. -/
theorem progPointState_entry_spec (m : Module) :
    (ProgPointState.entry (build_image m)).mem_overlay = [] ∧
    ((build_image m).globals = m.globals.filterMap
      (fun g =>
        match g.kind with
        | GlobalKind.Local (InitExpr.Value v) => some (g.id, v)
        | _ => none)) ∧
    (∀ g, lookupA (ProgPointState.entry (build_image m)).globals g
      = ((lookupA (build_image m).globals g).map
          (fun _ => AbstractValue.Runtime none 0))) := by
  refine ⟨rfl, rfl, ?_⟩
  intro g
  show lookupA ((build_image m).globals.map (fun p => (p.1, AbstractValue.Runtime none 0))) g = _
  generalize (build_image m).globals = l
  induction l with
  | nil => simp [lookupA]
  | cons kv rest ih =>
    obtain ⟨k, v⟩ := kv
    by_cases hk : k = g
    · simp [lookupA_cons, hk]
    · simp [lookupA_cons, hk, ih]

/-! ### Contexts (`src/state.rs`)

`Context` is a waffle entity index (`Nat`); `Context::invalid()` is the
reserved `u32::MAX` sentinel.  The `context_bucket` side table of `Contexts`
is never read or written by `create`/`parent`/`leaf_element`/`pop_one_loop`
and is omitted.  The arena's `EntityVec` is a list indexed by `Context`; the
dedup `FxHashMap` is an association list.
-/

abbrev Context := Nat

def Context.invalid : Context := 4294967295

inductive ContextElem : Type where
  | Root
  | Loop (pc : Nat)
  | PendingSpecialize (value : Nat) (lo : Nat) (hi : Nat)
  | Specialized (value : Nat) (lo : Nat)
deriving DecidableEq

structure Contexts : Type where
  contexts : List (Context × ContextElem)
  dedup : List ((Context × ContextElem) × Context)
deriving DecidableEq

def Contexts.create (c : Contexts) (parent : Option Context) (elem : ContextElem) :
    Contexts × Context :=
  match lookupA c.dedup (parent.getD Context.invalid, elem) with
  | some id => (c, id)
  | none =>
    ({ contexts := c.contexts ++ [(parent.getD Context.invalid, elem)]
     , dedup := c.dedup ++ [((parent.getD Context.invalid, elem), c.contexts.length)] },
     c.contexts.length)

def Contexts.parent (c : Contexts) (context : Context) : Context :=
  ((c.contexts.get? context).getD (Context.invalid, ContextElem.Root)).1

def Contexts.leaf_element (c : Contexts) (context : Context) : ContextElem :=
  ((c.contexts.get? context).getD (Context.invalid, ContextElem.Root)).2

/-- `Contexts::pop_one_loop` with explicit fuel for the unbounded `loop`;
`none` models both fuel exhaustion and the source's out-of-bounds index
panic. -/
def pop_one_loop_fuel (c : Contexts) : Nat → Context → Option Context
  | 0, _ => none
  | fuel + 1, context =>
    match c.contexts.get? context with
    | some (parent, ContextElem.Loop _) => some parent
    | some (_, ContextElem.Root) => some context
    | some (parent, _) => pop_one_loop_fuel c fuel parent
    | none => none

/-- Arena well-formedness: every dedup entry points at an arena slot holding
exactly its key.  Holds for the empty arena and is preserved by `create`. -/
def Contexts.WF (c : Contexts) : Prop :=
  ∀ k id, lookupA c.dedup k = some id →
    id < c.contexts.length ∧ c.contexts.get? id = some k

theorem contexts_wf_empty : Contexts.WF ⟨[], []⟩ := by
  intro k id h
  simp [lookupA] at h

theorem contexts_create_occupied (c : Contexts) {p : Option Context} {e : ContextElem}
    {id0 : Context} (hl : lookupA c.dedup (p.getD Context.invalid, e) = some id0) :
    c.create p e = (c, id0) := by
  unfold Contexts.create
  rw [hl]

theorem contexts_create_vacant (c : Contexts) {p : Option Context} {e : ContextElem}
    (hl : lookupA c.dedup (p.getD Context.invalid, e) = none) :
    c.create p e
      = ({ contexts := c.contexts ++ [(p.getD Context.invalid, e)]
         , dedup := c.dedup ++ [((p.getD Context.invalid, e), c.contexts.length)] },
         c.contexts.length) := by
  unfold Contexts.create
  rw [hl]

theorem contexts_create_wf (c : Contexts) (hc : c.WF) (p : Option Context) (e : ContextElem) :
    (c.create p e).1.WF := by
  cases hl : lookupA c.dedup (p.getD Context.invalid, e) with
  | some id =>
    rw [contexts_create_occupied c hl]
    exact hc
  | none =>
    rw [contexts_create_vacant c hl]
    intro k id h
    simp only at h
    rw [lookupA_append] at h
    cases hk : lookupA c.dedup k with
    | some id0 =>
      rw [hk] at h
      simp only [Option.some.injEq] at h
      obtain ⟨h1, h2⟩ := hc k id0 hk
      rw [← h]
      refine ⟨?_, ?_⟩
      · show id0 < (c.contexts ++ [(p.getD Context.invalid, e)]).length
        simp only [List.length_append, List.length_cons, List.length_nil]
        exact Nat.lt_succ_of_lt h1
      · show (c.contexts ++ [(p.getD Context.invalid, e)]).get? id0 = some k
        rw [List.get?_append h1]
        exact h2
    | none =>
      rw [hk] at h
      rw [lookupA_cons] at h
      by_cases hkey : (p.getD Context.invalid, e) = k
      · rw [if_pos hkey] at h
        simp only [Option.some.injEq] at h
        rw [← h, ← hkey]
        refine ⟨?_, ?_⟩
        · show c.contexts.length < (c.contexts ++ [(p.getD Context.invalid, e)]).length
          simp only [List.length_append, List.length_cons, List.length_nil]
          exact Nat.lt_succ_self _
        · show (c.contexts ++ [(p.getD Context.invalid, e)]).get? c.contexts.length
              = some (p.getD Context.invalid, e)
          exact List.get?_concat_length c.contexts _
      · rw [if_neg hkey] at h
        simp [lookupA] at h

theorem contexts_create_lookup (c : Contexts) (p : Option Context) (e : ContextElem) :
    lookupA (c.create p e).1.dedup (p.getD Context.invalid, e) = some (c.create p e).2 := by
  cases hl : lookupA c.dedup (p.getD Context.invalid, e) with
  | some id =>
    rw [contexts_create_occupied c hl]
    exact hl
  | none =>
    rw [contexts_create_vacant c hl]
    simp only
    rw [lookupA_append, hl, lookupA_cons]
    simp

theorem contexts_wf_distinct (c : Contexts) (hc : c.WF) {k1 : Context × ContextElem}
    {id1 : Context} (h1 : lookupA c.dedup k1 = some id1) (p2 : Option Context)
    (e2 : ContextElem) (hne : k1 ≠ (p2.getD Context.invalid, e2)) :
    (c.create p2 e2).2 ≠ id1 := by
  cases hl : lookupA c.dedup (p2.getD Context.invalid, e2) with
  | some id2 =>
    rw [contexts_create_occupied c hl]
    intro heq
    have heq2 : id2 = id1 := heq
    have w1 := hc _ _ h1
    have w2 := hc _ _ hl
    rw [heq2] at w2
    rw [w1.2] at w2
    exact hne (Option.some.inj w2.2)
  | none =>
    rw [contexts_create_vacant c hl]
    intro heq
    have heq2 : c.contexts.length = id1 := heq
    have w1 := hc _ _ h1
    rw [← heq2] at w1
    exact Nat.lt_irrefl _ w1.1

/-- C5: `Contexts::create` is deduplicating.  On a well-formed arena:
creating the same `(parent, elem)` twice returns the same identifier; two
creates with distinct normalized keys return distinct identifiers; and a
`None` parent is normalized to the `Context::invalid()` sentinel before the
dedup lookup, so `create None e` and `create (some invalid) e` agree
exactly. -/
theorem contexts_create_spec (c : Contexts) (hc : c.WF) (p p2 : Option Context)
    (e e2 : ContextElem) :
    (((c.create p e).1.create p e).2 = (c.create p e).2) ∧
    ((p.getD Context.invalid, e) ≠ (p2.getD Context.invalid, e2) →
      ((c.create p e).1.create p2 e2).2 ≠ (c.create p e).2) ∧
    (c.create none e = c.create (some Context.invalid) e) := by
  have hlk := contexts_create_lookup c p e
  have hwf1 := contexts_create_wf c hc p e
  refine ⟨?_, ?_, rfl⟩
  · rw [contexts_create_occupied (c.create p e).1 hlk]
  · intro hne
    exact contexts_wf_distinct (c.create p e).1 hwf1 hlk p2 e2 hne

/-- C5 witness: on the empty arena, re-creating `(none, Root)` returns context
`0` again, while creating the distinct key `(none, Loop 7)` afterwards does
not alias it. -/
theorem contexts_create_spec_witness :
    ((((Contexts.mk [] []).create none ContextElem.Root).1.create none ContextElem.Root).2
        = (((Contexts.mk [] []).create none ContextElem.Root)).2) ∧
      ((((Contexts.mk [] []).create none ContextElem.Root).1.create none
          (ContextElem.Loop 7)).2
        ≠ (((Contexts.mk [] []).create none ContextElem.Root)).2) := by
  have h := contexts_create_spec (Contexts.mk [] []) contexts_wf_empty none none
    ContextElem.Root (ContextElem.Loop 7)
  exact ⟨h.1, h.2.1 (by decide)⟩

/-! ### C6: `pop_one_loop` -/

/-- The parent chain of `ctx` is well defined and reaches a `Root` leaf after
exactly `n` arena lookups (so `n` is the chain length, counting `ctx`
itself). -/
inductive RootedAt (c : Contexts) : Context → Nat → Prop where
  | root (ctx : Context) (p : Context) :
      c.contexts.get? ctx = some (p, ContextElem.Root) → RootedAt c ctx 1
  | step (ctx p : Context) (e : ContextElem) (n : Nat) :
      c.contexts.get? ctx = some (p, e) → e ≠ ContextElem.Root →
      RootedAt c p n → RootedAt c ctx (n + 1)

theorem pop_one_loop_fuel_succ (c : Contexts) (fuel : Nat) (context : Context) :
    pop_one_loop_fuel c (fuel + 1) context =
      (match c.contexts.get? context with
       | some (parent, ContextElem.Loop _) => some parent
       | some (_, ContextElem.Root) => some context
       | some (parent, _) => pop_one_loop_fuel c fuel parent
       | none => none) := rfl

/-- C6: on a context whose parent chain reaches `Root` in `n` steps,
`pop_one_loop` terminates within `n` iterations (fuel `n` suffices, and any
larger fuel returns the same answer), and returns: the parent when the leaf
element is a `Loop`; the context itself when the leaf is `Root`; and otherwise
the result of popping the parent. -/
theorem pop_one_loop_spec (c : Contexts) (ctx : Context) (n : Nat)
    (h : RootedAt c ctx n) :
    (∃ r, pop_one_loop_fuel c n ctx = some r) ∧
    (∀ f, n ≤ f → pop_one_loop_fuel c f ctx = pop_one_loop_fuel c n ctx) ∧
    (∀ p pc, c.contexts.get? ctx = some (p, ContextElem.Loop pc) →
      pop_one_loop_fuel c n ctx = some p) ∧
    (∀ p, c.contexts.get? ctx = some (p, ContextElem.Root) →
      pop_one_loop_fuel c n ctx = some ctx) ∧
    (∀ p e, c.contexts.get? ctx = some (p, e) →
      (∀ pc, e ≠ ContextElem.Loop pc) → e ≠ ContextElem.Root →
      pop_one_loop_fuel c n ctx = pop_one_loop_fuel c (n - 1) p) := by
  induction h with
  | root ctx p hget =>
    have hpop : pop_one_loop_fuel c 1 ctx = some ctx := by
      rw [pop_one_loop_fuel_succ, hget]
    refine ⟨⟨ctx, hpop⟩, ?_, ?_, ?_, ?_⟩
    · intro f hf
      cases f with
      | zero => cases hf
      | succ f2 =>
        rw [hpop]
        rw [pop_one_loop_fuel_succ, hget]
    · intro p2 pc hget2
      rw [hget] at hget2
      cases hget2
    · intro p2 hget2
      exact hpop
    · intro p2 e hget2 hnl hnr
      rw [hget] at hget2
      injection hget2 with hg
      injection hg with hg1 hg2
      exact absurd hg2.symm hnr
  | step ctx p e n hget hne hrec ih =>
    cases e with
    | Root => exact absurd rfl hne
    | Loop pc =>
      have hpop : pop_one_loop_fuel c (n + 1) ctx = some p := by
        rw [pop_one_loop_fuel_succ, hget]
      refine ⟨⟨p, hpop⟩, ?_, ?_, ?_, ?_⟩
      · intro f hf
        cases f with
        | zero => cases hf
        | succ f2 =>
          rw [hpop]
          rw [pop_one_loop_fuel_succ, hget]
      · intro p2 pc2 hget2
        rw [hget] at hget2
        injection hget2 with hg
        injection hg with hg1 hg2
        rw [hpop, hg1]
      · intro p2 hget2
        rw [hget] at hget2
        injection hget2 with hg
        injection hg with hg1 hg2
        cases hg2
      · intro p2 e2 hget2 hnl hnr
        rw [hget] at hget2
        injection hget2 with hg
        injection hg with hg1 hg2
        exact absurd hg2.symm (hnl pc)
    | PendingSpecialize a b d =>
      obtain ⟨⟨r, hr⟩, hfuel, hloop, hroot, hother⟩ := ih
      have hpop : pop_one_loop_fuel c (n + 1) ctx = pop_one_loop_fuel c n p := by
        rw [pop_one_loop_fuel_succ, hget]
      refine ⟨⟨r, by rw [hpop]; exact hr⟩, ?_, ?_, ?_, ?_⟩
      · intro f hf
        cases f with
        | zero => cases hf
        | succ f2 =>
          have hf2 : n ≤ f2 := Nat.le_of_succ_le_succ hf
          rw [hpop]
          rw [show pop_one_loop_fuel c (f2 + 1) ctx = pop_one_loop_fuel c f2 p from by
            rw [pop_one_loop_fuel_succ, hget]]
          exact hfuel f2 hf2
      · intro p2 pc2 hget2
        rw [hget] at hget2
        injection hget2 with hg
        injection hg with hg1 hg2
        cases hg2
      · intro p2 hget2
        rw [hget] at hget2
        injection hget2 with hg
        injection hg with hg1 hg2
        cases hg2
      · intro p2 e2 hget2 hnl hnr
        rw [hget] at hget2
        injection hget2 with hg
        injection hg with hg1 hg2
        rw [hpop, ← hg1]
        simp
    | Specialized a b =>
      obtain ⟨⟨r, hr⟩, hfuel, hloop, hroot, hother⟩ := ih
      have hpop : pop_one_loop_fuel c (n + 1) ctx = pop_one_loop_fuel c n p := by
        rw [pop_one_loop_fuel_succ, hget]
      refine ⟨⟨r, by rw [hpop]; exact hr⟩, ?_, ?_, ?_, ?_⟩
      · intro f hf
        cases f with
        | zero => cases hf
        | succ f2 =>
          have hf2 : n ≤ f2 := Nat.le_of_succ_le_succ hf
          rw [hpop]
          rw [show pop_one_loop_fuel c (f2 + 1) ctx = pop_one_loop_fuel c f2 p from by
            rw [pop_one_loop_fuel_succ, hget]]
          exact hfuel f2 hf2
      · intro p2 pc2 hget2
        rw [hget] at hget2
        injection hget2 with hg
        injection hg with hg1 hg2
        cases hg2
      · intro p2 hget2
        rw [hget] at hget2
        injection hget2 with hg
        injection hg with hg1 hg2
        cases hg2
      · intro p2 e2 hget2 hnl hnr
        rw [hget] at hget2
        injection hget2 with hg
        injection hg with hg1 hg2
        rw [hpop, ← hg1]
        simp

def c6Arena : Contexts :=
  ⟨[(Context.invalid, ContextElem.Root), (0, ContextElem.Loop 1), (1, ContextElem.Loop 2)],
   [((Context.invalid, ContextElem.Root), 0), ((0, ContextElem.Loop 1), 1),
    ((1, ContextElem.Loop 2), 2)]⟩

/-- C6 witness: a `Root` context under two nested loops; popping the innermost
loop context (chain length 3) yields its parent within 3 steps. -/
theorem pop_one_loop_spec_witness : pop_one_loop_fuel c6Arena 3 2 = some 1 := by
  have hroot : RootedAt c6Arena 0 1 := RootedAt.root 0 Context.invalid rfl
  have h1 : RootedAt c6Arena 1 2 :=
    RootedAt.step 1 0 (ContextElem.Loop 1) 1 rfl (by decide) hroot
  have h2 : RootedAt c6Arena 2 3 :=
    RootedAt.step 2 1 (ContextElem.Loop 2) 2 rfl (by decide) h1
  exact (pop_one_loop_spec c6Arena 2 3 h2).2.2.1 1 2 rfl

/-! ### `ProgPointState::update_at_block_entry` (`src/state.rs`)

The two `FnMut` callbacks mutate driver state `C`; they are embedded as
state-passing functions.  `get_blockparam` returns the mutated state plus the
`(addr, param)` pair; `remove_blockparam` returns the mutated state.
`uabeLoop` is the `for` loop over the overlay (entries kept in place, conflict
addresses queued in `to_remove`), followed by the removals.  The source's
`anyhow::Result<()>` is `Except String Unit` and the function body ends in
`Ok(())` with no fallible step.
-/

def uabeLoop {C : Type} (get_blockparam : C → SymbolicAddr → WType → C × Nat × Nat)
    (remove_blockparam : C → SymbolicAddr → C) :
    List (SymbolicAddr × MemValue) → C →
      List (SymbolicAddr × MemValue) × C × List SymbolicAddr
  | [], ctx => ([], ctx, [])
  | (a, v) :: rest, ctx =>
    match v with
    | MemValue.TypedMerge ty abs =>
      let g := get_blockparam ctx a ty
      let r := uabeLoop get_blockparam remove_blockparam rest g.1
      ((a, MemValue.Value g.2.2 ty g.2.1 true abs) :: r.1, r.2)
    | MemValue.Conflict =>
      let c2 := remove_blockparam ctx a
      let r := uabeLoop get_blockparam remove_blockparam rest c2
      ((a, v) :: r.1, r.2.1, a :: r.2.2)
    | other =>
      let r := uabeLoop get_blockparam remove_blockparam rest ctx
      ((a, other) :: r.1, r.2)

def update_at_block_entry {C : Type} (s : ProgPointState) (ctx : C)
    (get_blockparam : C → SymbolicAddr → WType → C × Nat × Nat)
    (remove_blockparam : C → SymbolicAddr → C) :
    ProgPointState × C × Except String Unit :=
  let r := uabeLoop get_blockparam remove_blockparam s.mem_overlay ctx
  let overlay := r.2.2.foldl (fun m a => removeA m a) r.1
  ({ mem_overlay := overlay, globals := s.globals }, r.2.1, Except.ok ())

theorem lookupA_removeA {K V : Type} [DecidableEq K] (m : List (K × V)) (k q : K) :
    lookupA (removeA m k) q = if q = k then none else lookupA m q := by
  induction m with
  | nil => simp [removeA, lookupA]
  | cons kv rest ih =>
    obtain ⟨k0, v0⟩ := kv
    by_cases hk0 : k0 = k
    · subst hk0
      rw [show removeA ((k0, v0) :: rest) k0 = removeA rest k0 from by simp [removeA]]
      rw [ih]
      by_cases hq : q = k0
      · simp [hq]
      · have hk0q : ¬(k0 = q) := fun h => hq h.symm
        simp [hq, lookupA_cons, hk0q]
    · rw [show removeA ((k0, v0) :: rest) k = (k0, v0) :: removeA rest k from by
        simp [removeA, hk0]]
      rw [lookupA_cons, lookupA_cons, ih]
      by_cases hq : k0 = q
      · subst hq
        simp [hk0]
      · simp [hq]

theorem lookupA_removeAll {K V : Type} [DecidableEq K] (ks : List K) (m : List (K × V))
    (q : K) :
    lookupA (ks.foldl (fun m2 a => removeA m2 a) m) q
      = if q ∈ ks then none else lookupA m q := by
  induction ks generalizing m with
  | nil => simp
  | cons a ks ih =>
    simp only [List.foldl_cons]
    rw [ih]
    by_cases hq : q ∈ ks
    · simp [hq]
    · by_cases hqa : q = a
      · simp [hq, hqa, lookupA_removeA]
      · simp [hq, hqa, lookupA_removeA]

theorem mem_of_lookupA_some {K V : Type} [DecidableEq K] {l : List (K × V)} {k : K} {v : V}
    (h : lookupA l k = some v) : (k, v) ∈ l := by
  induction l with
  | nil => cases h
  | cons kv rest ih =>
    obtain ⟨k0, v0⟩ := kv
    rw [lookupA_cons] at h
    by_cases hk : k0 = k
    · rw [if_pos hk] at h
      injection h with h
      rw [← hk, ← h]
      exact List.mem_cons_self _ _
    · rw [if_neg hk] at h
      exact List.mem_cons_of_mem _ (ih h)

theorem lookupA_some_of_mem_nodup {K V : Type} [DecidableEq K] {l : List (K × V)} {k : K}
    {v : V} (hnd : (l.map Prod.fst).Nodup) (hm : (k, v) ∈ l) : lookupA l k = some v := by
  induction l with
  | nil => cases hm
  | cons kv rest ih =>
    obtain ⟨k0, v0⟩ := kv
    simp only [List.map_cons, List.nodup_cons] at hnd
    rcases List.mem_cons.1 hm with hm1 | hm2
    · injection hm1 with h1 h2
      rw [lookupA_cons, if_pos h1.symm, h2]
    · have hk : k0 ≠ k := by
        intro hc
        apply hnd.1
        rw [hc]
        exact List.mem_map.2 ⟨(k, v), hm2, rfl⟩
      rw [lookupA_cons, if_neg hk]
      exact ih hnd.2 hm2

theorem uabeLoop_keys {C : Type} (gb : C → SymbolicAddr → WType → C × Nat × Nat)
    (rb : C → SymbolicAddr → C) (l : List (SymbolicAddr × MemValue)) (ctx : C) :
    (uabeLoop gb rb l ctx).1.map Prod.fst = l.map Prod.fst := by
  induction l generalizing ctx with
  | nil => rfl
  | cons kv rest ih =>
    obtain ⟨a, v⟩ := kv
    cases v <;> simp [uabeLoop, ih]

theorem uabeLoop_conflicts {C : Type} (gb : C → SymbolicAddr → WType → C × Nat × Nat)
    (rb : C → SymbolicAddr → C) (l : List (SymbolicAddr × MemValue)) (ctx : C) :
    (uabeLoop gb rb l ctx).2.2
      = (l.filter (fun kv => decide (kv.2 = MemValue.Conflict))).map Prod.fst := by
  induction l generalizing ctx with
  | nil => rfl
  | cons kv rest ih =>
    obtain ⟨a, v⟩ := kv
    cases v <;> simp [uabeLoop, ih, List.filter_cons]

theorem uabeLoop_lookup_none {C : Type} (gb : C → SymbolicAddr → WType → C × Nat × Nat)
    (rb : C → SymbolicAddr → C) {l : List (SymbolicAddr × MemValue)} {q : SymbolicAddr}
    (h : lookupA l q = none) (ctx : C) : lookupA (uabeLoop gb rb l ctx).1 q = none := by
  rw [lookupA_eq_none_iff, uabeLoop_keys]
  exact (lookupA_eq_none_iff l q).1 h

theorem uabeLoop_lookup_keep {C : Type} (gb : C → SymbolicAddr → WType → C × Nat × Nat)
    (rb : C → SymbolicAddr → C) {l : List (SymbolicAddr × MemValue)} {q : SymbolicAddr}
    {v : MemValue} (h : lookupA l q = some v) (hv : ∀ t ab, v ≠ MemValue.TypedMerge t ab)
    (ctx : C) : lookupA (uabeLoop gb rb l ctx).1 q = some v := by
  induction l generalizing ctx with
  | nil => cases h
  | cons kv rest ih =>
    obtain ⟨a, v0⟩ := kv
    rw [lookupA_cons] at h
    by_cases ha : a = q
    · rw [if_pos ha] at h
      injection h with h
      subst h
      cases v0 with
      | TypedMerge t ab => exact absurd rfl (hv t ab)
      | Value d t ad dr ab => simp [uabeLoop, lookupA_cons, ha]
      | Flushed t ad => simp [uabeLoop, lookupA_cons, ha]
      | Conflict => simp [uabeLoop, lookupA_cons, ha]
    · rw [if_neg ha] at h
      cases v0 <;> simp [uabeLoop, lookupA_cons, ha, ih h]

theorem uabeLoop_lookup_merge {C : Type} (gb : C → SymbolicAddr → WType → C × Nat × Nat)
    (rb : C → SymbolicAddr → C) {l : List (SymbolicAddr × MemValue)} {q : SymbolicAddr}
    {t : WType} {ab : AbstractValue} (h : lookupA l q = some (MemValue.TypedMerge t ab))
    (ctx : C) :
    ∃ c c2 addr param, gb c q t = (c2, addr, param) ∧
      lookupA (uabeLoop gb rb l ctx).1 q
        = some (MemValue.Value param t addr true ab) := by
  induction l generalizing ctx with
  | nil => cases h
  | cons kv rest ih =>
    obtain ⟨a, v0⟩ := kv
    rw [lookupA_cons] at h
    by_cases ha : a = q
    · rw [if_pos ha] at h
      injection h with h
      subst h
      subst ha
      refine ⟨ctx, (gb ctx a t).1, (gb ctx a t).2.1, (gb ctx a t).2.2, rfl, ?_⟩
      simp [uabeLoop, lookupA_cons]
    · rw [if_neg ha] at h
      cases v0 with
      | TypedMerge t2 ab2 =>
        obtain ⟨c, c2, addr, param, hgb, hlk⟩ := ih h ((gb ctx a t2).1)
        exact ⟨c, c2, addr, param, hgb, by simp [uabeLoop, lookupA_cons, ha, hlk]⟩
      | Value d t2 ad dr ab2 =>
        obtain ⟨c, c2, addr, param, hgb, hlk⟩ := ih h ctx
        exact ⟨c, c2, addr, param, hgb, by simp [uabeLoop, lookupA_cons, ha, hlk]⟩
      | Flushed t2 ad =>
        obtain ⟨c, c2, addr, param, hgb, hlk⟩ := ih h ctx
        exact ⟨c, c2, addr, param, hgb, by simp [uabeLoop, lookupA_cons, ha, hlk]⟩
      | Conflict =>
        obtain ⟨c, c2, addr, param, hgb, hlk⟩ := ih h (rb ctx a)
        exact ⟨c, c2, addr, param, hgb, by simp [uabeLoop, lookupA_cons, ha, hlk]⟩

theorem uabeLoop_log {l : List (SymbolicAddr × MemValue)}
    (f0 : SymbolicAddr → WType → Nat × Nat) (log : List SymbolicAddr) :
    (uabeLoop (fun c a t => (c, f0 a t)) (fun c a => c ++ [a]) l log).2.1
      = log ++ (l.filter (fun kv => decide (kv.2 = MemValue.Conflict))).map Prod.fst := by
  induction l generalizing log with
  | nil => simp [uabeLoop]
  | cons kv rest ih =>
    obtain ⟨a, v⟩ := kv
    cases v with
    | Value d t ad dr ab => simp [uabeLoop, ih, List.filter_cons]
    | Flushed t ad => simp [uabeLoop, ih, List.filter_cons]
    | TypedMerge t ab => simp [uabeLoop, ih, List.filter_cons]
    | Conflict =>
      simp only [uabeLoop, List.filter_cons]
      rw [ih]
      simp

/-- C8: `update_at_block_entry` leaves concrete `Value` and `Flushed` overlay
cells unchanged; rewrites every `TypedMerge(ty, abs)` cell into a `Value` cell
whose `data` and `addr` come from a `get_blockparam` call for that address and
type, with abstract value `abs` and `dirty = true`; evicts every `Conflict`
cell; leaves no `Conflict` or `TypedMerge` cell behind; and (instantiating the
callback state with a log) calls `remove_blockparam` exactly on the conflict
addresses, in overlay order. -/
theorem update_at_block_entry_spec {C : Type} (s : ProgPointState) (ctx : C)
    (gb : C → SymbolicAddr → WType → C × Nat × Nat) (rb : C → SymbolicAddr → C)
    (h : (s.mem_overlay.map Prod.fst).Nodup) :
    (∀ q d t a dr ab, lookupA s.mem_overlay q = some (MemValue.Value d t a dr ab) →
      lookupA (update_at_block_entry s ctx gb rb).1.mem_overlay q
        = some (MemValue.Value d t a dr ab)) ∧
    (∀ q t a, lookupA s.mem_overlay q = some (MemValue.Flushed t a) →
      lookupA (update_at_block_entry s ctx gb rb).1.mem_overlay q
        = some (MemValue.Flushed t a)) ∧
    (∀ q t ab, lookupA s.mem_overlay q = some (MemValue.TypedMerge t ab) →
      ∃ c c2 addr param, gb c q t = (c2, addr, param) ∧
        lookupA (update_at_block_entry s ctx gb rb).1.mem_overlay q
          = some (MemValue.Value param t addr true ab)) ∧
    (∀ q, lookupA s.mem_overlay q = some MemValue.Conflict →
      lookupA (update_at_block_entry s ctx gb rb).1.mem_overlay q = none) ∧
    (∀ q t ab,
      lookupA (update_at_block_entry s ctx gb rb).1.mem_overlay q ≠ some MemValue.Conflict ∧
      lookupA (update_at_block_entry s ctx gb rb).1.mem_overlay q
        ≠ some (MemValue.TypedMerge t ab)) ∧
    (∀ (log : List SymbolicAddr) (f0 : SymbolicAddr → WType → Nat × Nat),
      (update_at_block_entry s log (fun c a t => (c, f0 a t)) (fun c a => c ++ [a])).2.1
        = log ++ (s.mem_overlay.filter
            (fun kv => decide (kv.2 = MemValue.Conflict))).map Prod.fst) := by
  have hconf : (uabeLoop gb rb s.mem_overlay ctx).2.2
      = (s.mem_overlay.filter (fun kv => decide (kv.2 = MemValue.Conflict))).map Prod.fst :=
    uabeLoop_conflicts gb rb s.mem_overlay ctx
  have hfinal : ∀ q, lookupA (update_at_block_entry s ctx gb rb).1.mem_overlay q
      = if q ∈ (uabeLoop gb rb s.mem_overlay ctx).2.2 then none
        else lookupA (uabeLoop gb rb s.mem_overlay ctx).1 q := by
    intro q
    exact lookupA_removeAll _ _ q
  have hnotconf : ∀ q v, lookupA s.mem_overlay q = some v → v ≠ MemValue.Conflict →
      q ∉ (uabeLoop gb rb s.mem_overlay ctx).2.2 := by
    intro q v hl hv hq
    rw [hconf] at hq
    obtain ⟨kv, hkv, hfst⟩ := List.mem_map.1 hq
    obtain ⟨hmem, hp⟩ := List.mem_filter.1 hkv
    have hkv2 : kv.2 = MemValue.Conflict := of_decide_eq_true hp
    have : (q, MemValue.Conflict) ∈ s.mem_overlay := by
      rw [← hfst, ← hkv2]
      exact hmem
    have := lookupA_some_of_mem_nodup h this
    rw [hl] at this
    injection this with this
    exact hv this
  have hkeep : ∀ q v, lookupA s.mem_overlay q = some v →
      (∀ t ab, v ≠ MemValue.TypedMerge t ab) → v ≠ MemValue.Conflict →
      lookupA (update_at_block_entry s ctx gb rb).1.mem_overlay q = some v := by
    intro q v hl hvt hvc
    rw [hfinal q, if_neg (hnotconf q v hl hvc)]
    exact uabeLoop_lookup_keep gb rb hl hvt ctx
  refine ⟨?_, ?_, ?_, ?_, ?_, ?_⟩
  · intro q d t a dr ab hl
    exact hkeep q _ hl (by intro t2 ab2 hc; cases hc) (by intro hc; cases hc)
  · intro q t a hl
    exact hkeep q _ hl (by intro t2 ab2 hc; cases hc) (by intro hc; cases hc)
  · intro q t ab hl
    obtain ⟨c, c2, addr, param, hgb, hlk⟩ := uabeLoop_lookup_merge gb rb hl ctx
    refine ⟨c, c2, addr, param, hgb, ?_⟩
    rw [hfinal q, if_neg (hnotconf q _ hl (by intro hc; cases hc))]
    exact hlk
  · intro q hl
    rw [hfinal q, if_pos ?_]
    rw [hconf]
    refine List.mem_map.2 ⟨(q, MemValue.Conflict), ?_, rfl⟩
    exact List.mem_filter.2 ⟨mem_of_lookupA_some hl, by simp⟩
  · intro q t ab
    cases hl : lookupA s.mem_overlay q with
    | none =>
      have : lookupA (update_at_block_entry s ctx gb rb).1.mem_overlay q = none := by
        rw [hfinal q]
        rw [uabeLoop_lookup_none gb rb hl ctx]
        simp
      rw [this]
      refine ⟨fun hc => ?_, fun hc => ?_⟩ <;> simp at hc
    | some v =>
      cases v with
      | Value d t2 a2 dr ab2 =>
        rw [hkeep q _ hl (by intro t3 ab3 hc; cases hc) (by intro hc; cases hc)]
        refine ⟨fun hc => ?_, fun hc => ?_⟩ <;> simp at hc
      | Flushed t2 a2 =>
        rw [hkeep q _ hl (by intro t3 ab3 hc; cases hc) (by intro hc; cases hc)]
        refine ⟨fun hc => ?_, fun hc => ?_⟩ <;> simp at hc
      | Conflict =>
        have : lookupA (update_at_block_entry s ctx gb rb).1.mem_overlay q = none := by
          rw [hfinal q, if_pos ?_]
          rw [hconf]
          refine List.mem_map.2 ⟨(q, MemValue.Conflict), ?_, rfl⟩
          exact List.mem_filter.2 ⟨mem_of_lookupA_some hl, by simp⟩
        rw [this]
        refine ⟨fun hc => ?_, fun hc => ?_⟩ <;> simp at hc
      | TypedMerge t2 ab2 =>
        obtain ⟨c, c2, addr, param, hgb, hlk⟩ := uabeLoop_lookup_merge gb rb hl ctx
        have : lookupA (update_at_block_entry s ctx gb rb).1.mem_overlay q
            = some (MemValue.Value param t2 addr true ab2) := by
          rw [hfinal q, if_neg (hnotconf q _ hl (by intro hc; cases hc))]
          exact hlk
        rw [this]
        refine ⟨fun hc => ?_, fun hc => ?_⟩ <;> simp at hc
  · intro log f0
    exact uabeLoop_log f0 log

/-- C8 witness: a single `TypedMerge` cell is materialized into a dirty
`Value` cell via the callback. -/
theorem update_at_block_entry_spec_witness :
    ∃ c c2 addr param,
      (fun (c3 : Nat) (_ : SymbolicAddr) (_ : WType) => (c3 + 1, 5, 7)) c
          (SymbolicAddr.mk 0 WType.i32 0) WType.i32 = (c2, addr, param) ∧
      lookupA (update_at_block_entry
          ⟨[(SymbolicAddr.mk 0 WType.i32 0,
             MemValue.TypedMerge WType.i32 (AbstractValue.Runtime none 0))], []⟩
          (0 : Nat) (fun c3 _ _ => (c3 + 1, 5, 7)) (fun c3 _ => c3)).1.mem_overlay
          (SymbolicAddr.mk 0 WType.i32 0)
        = some (MemValue.Value param WType.i32 addr true (AbstractValue.Runtime none 0)) :=
  (update_at_block_entry_spec
    ⟨[(SymbolicAddr.mk 0 WType.i32 0,
       MemValue.TypedMerge WType.i32 (AbstractValue.Runtime none 0))], []⟩
    (0 : Nat) (fun c3 _ _ => (c3 + 1, 5, 7)) (fun c3 _ => c3) (by decide)).2.2.1
    (SymbolicAddr.mk 0 WType.i32 0) WType.i32 (AbstractValue.Runtime none 0) (by decide)

/-- C10: `update_at_block_entry` has return type `Result` in the source
(`anyhow::Result<()>` here `Except String Unit`), but every execution returns
`Ok(())`: no input or callbacks can produce an error value. -/
theorem update_at_block_entry_infallible {C : Type} (s : ProgPointState) (ctx : C)
    (gb : C → SymbolicAddr → WType → C × Nat × Nat) (rb : C → SymbolicAddr → C) :
    (update_at_block_entry s ctx gb rb).2.2 = Except.ok () := rfl

/-! ### Dead-code elimination (`src/dce.rs`)

The waffle IR pieces the pass consults are embedded as follows.  `Value` and
`Block` ids are `Nat`; the `arg_pool`/`type_pool` list refs are inlined as
lists; `FxHashSet<Value>` is `Finset Nat`.  `Operator` is modelled at the
interface the pass reads: the four specially-cased constructors become a
`kind` tag, and `is_load()`, `effects()`, `is_pure()` become fields.  Rust
panics on out-of-bounds indexing are totalized with defaults.  The unbounded
`loop` gets explicit fuel; `run` returns `none` on fuel exhaustion or when the
final type-validation assertion fails (the source panics there).
-/

inductive SideEffect : Type where
  | Trap | ReadMem | WriteMem | ReadGlobal | WriteGlobal | ReadTable | WriteTable | Any
deriving DecidableEq

inductive OpKind : Type where
  | TableSize | MemorySize | GlobalGet | TableGet | Other
deriving DecidableEq

structure Operator : Type where
  kind : OpKind
  is_load : Bool
  effects : List SideEffect
  is_pure : Bool
deriving DecidableEq

def op_can_be_removed (op : Operator) : Bool :=
  if op.is_load then true
  else if op.effects = [SideEffect.Trap] then true
  else if op.kind = OpKind.TableSize ∨ op.kind = OpKind.MemorySize then true
  else if op.kind = OpKind.GlobalGet ∨ op.kind = OpKind.TableGet then true
  else if op.is_pure then true
  else false

inductive ValueDef : Type where
  | BlockParam (block : Nat) (idx : Nat) (ty : WType)
  | Operator (op : Operator) (args : List Nat) (tys : List WType)
  | PickOutput (src : Nat) (idx : Nat) (ty : WType)
  | Alias (orig : Nat)
  | Placeholder (ty : WType)
  | NoneDef
deriving DecidableEq

structure BlockTarget : Type where
  block : Nat
  args : List Nat
deriving DecidableEq

inductive Terminator : Type where
  | Br (target : BlockTarget)
  | CondBr (cond : Nat) (if_true : BlockTarget) (if_false : BlockTarget)
  | Select (value : Nat) (targets : List BlockTarget) (defaultTarget : BlockTarget)
  | Return (values : List Nat)
  | Unreachable
  | NoneTerm
deriving DecidableEq

def Terminator.targets : Terminator → List BlockTarget
  | Terminator.Br t => [t]
  | Terminator.CondBr _ t f => [t, f]
  | Terminator.Select _ ts d => ts ++ [d]
  | _ => []

def Terminator.update_targets (g : BlockTarget → BlockTarget) : Terminator → Terminator
  | Terminator.Br t => Terminator.Br (g t)
  | Terminator.CondBr c t f => Terminator.CondBr c (g t) (g f)
  | Terminator.Select v ts d => Terminator.Select v (ts.map g) (g d)
  | t => t

structure BlockDef : Type where
  params : List (WType × Nat)
  insts : List Nat
  terminator : Terminator
deriving DecidableEq

structure FunctionBody : Type where
  entry : Nat
  blocks : List BlockDef
  values : List ValueDef
deriving DecidableEq

def emptyBlock : BlockDef := ⟨[], [], Terminator.NoneTerm⟩

def FunctionBody.blockDef (f : FunctionBody) (b : Nat) : BlockDef :=
  (f.blocks.get? b).getD emptyBlock

def FunctionBody.valueDef (f : FunctionBody) (v : Nat) : ValueDef :=
  (f.values.get? v).getD ValueDef.NoneDef

/-- waffle `CFGInfo` at the interface `dce::run` reads: the reverse-postorder
block list and the per-block `rpo_pos` table (`PerEntity` defaults to
`None`). -/
structure CFGInfo : Type where
  rpo : List Nat
  rpo_pos : List (Option Nat)
deriving DecidableEq

/-- The values inserted by one `mark_used` call: the argument, then the alias
chain below it (the source's `while let Alias` loop, fueled; any chain in an
acyclic value table is shorter than the table). -/
def chaseList (values : List ValueDef) : Nat → Nat → List Nat
  | 0, arg => [arg]
  | fuel + 1, arg =>
    match (values.get? arg).getD ValueDef.NoneDef with
    | ValueDef.Alias orig => arg :: chaseList values fuel orig
    | _ => [arg]

def markUsed (f : FunctionBody) (used : Finset Nat) (arg : Nat) : Finset Nat × Bool :=
  let chain := (chaseList f.values (f.values.length + 1) arg).toFinset
  (used ∪ chain, decide (¬chain ⊆ used))

def markSt (f : FunctionBody) (st : Finset Nat × Bool) (arg : Nat) : Finset Nat × Bool :=
  ((markUsed f st.1 arg).1, st.2 || (markUsed f st.1 arg).2)

def markListSt (f : FunctionBody) (st : Finset Nat × Bool) (args : List Nat) :
    Finset Nat × Bool :=
  args.foldl (markSt f) st

def scanTargetPair (f : FunctionBody) (st : Finset Nat × Bool) (p : Nat × (WType × Nat)) :
    Finset Nat × Bool :=
  if p.2.2 ∈ st.1 then markSt f st p.1 else st

def scanTarget (f : FunctionBody) (st : Finset Nat × Bool) (t : BlockTarget) :
    Finset Nat × Bool :=
  (t.args.zip (f.blockDef t.block).params).foldl (scanTargetPair f) st

def scanTermValues (f : FunctionBody) (st : Finset Nat × Bool) :
    Terminator → Finset Nat × Bool
  | Terminator.CondBr c _ _ => markSt f st c
  | Terminator.Select v _ _ => markSt f st v
  | Terminator.Return vs => markListSt f st vs
  | _ => st

def scanInst (f : FunctionBody) (st : Finset Nat × Bool) (inst : Nat) : Finset Nat × Bool :=
  match f.valueDef inst with
  | ValueDef.PickOutput src _ _ => if inst ∈ st.1 then markSt f st src else st
  | ValueDef.Operator op args _ =>
    let st2 := if op_can_be_removed op then st
               else (insert inst st.1, st.2 || decide (inst ∉ st.1))
    if inst ∈ st2.1 then markListSt f st2 args else st2
  | _ => st

def scan_block (f : FunctionBody) (st : Finset Nat × Bool) (block : Nat) :
    Finset Nat × Bool :=
  (f.blockDef block).insts.reverse.foldl (scanInst f)
    (scanTermValues f
      ((f.blockDef block).terminator.targets.foldl (scanTarget f) st)
      (f.blockDef block).terminator)

def scanAll (f : FunctionBody) (cfg : CFGInfo) (used : Finset Nat) : Finset Nat × Bool :=
  cfg.rpo.reverse.foldl (scan_block f) (used, false)

def dceLoop (f : FunctionBody) (cfg : CFGInfo) : Nat → Finset Nat → Option (Finset Nat)
  | 0, _ => none
  | fuel + 1, used =>
    if (scanAll f cfg used).2 then dceLoop f cfg fuel (scanAll f cfg used).1
    else some (scanAll f cfg used).1

def clearedBlock : BlockDef := ⟨[], [], Terminator.Unreachable⟩

def clearBlocks (cfg : CFGInfo) : Nat → List BlockDef → List BlockDef
  | _, [] => []
  | i, bd :: rest =>
    (if ((cfg.rpo_pos.get? i).getD none).isNone then clearedBlock else bd)
      :: clearBlocks cfg (i + 1) rest

def clearUnreachable (cfg : CFGInfo) (f : FunctionBody) : FunctionBody :=
  { f with blocks := clearBlocks cfg 0 f.blocks }

def dummyParam : WType × Nat := (WType.i32, 0)

/-- The branch-arg removal loop: descending indices `i` over `args`, removing
`args[i]` when the target's `params[i]` is unused — i.e. a positional filter
by the params entry, here written as a recursion carrying the index.  The
source indexes `params[i]` (panicking when `args` is longer than `params`);
the embedding reads a dummy there. -/
def removeArgsAux (params : List (WType × Nat)) (used : Finset Nat) :
    Nat → List Nat → List Nat
  | _, [] => []
  | i, a :: as =>
    if ((params.get? i).getD dummyParam).2 ∈ used
    then a :: removeArgsAux params used (i + 1) as
    else removeArgsAux params used (i + 1) as

def removeArgs (params : List (WType × Nat)) (used : Finset Nat) (args : List Nat) :
    List Nat :=
  removeArgsAux params used 0 args

def pruneTarget (f : FunctionBody) (used : Finset Nat) (t : BlockTarget) : BlockTarget :=
  { block := t.block, args := removeArgs (f.blockDef t.block).params used t.args }

/-- First deletion loop: retain used insts and prune each target's branch
args (reading the target block's still-unfiltered params). -/
def deleteDeadBlock (f : FunctionBody) (used : Finset Nat) (bd : BlockDef) : BlockDef :=
  { params := bd.params
  , insts := bd.insts.filter (fun i => decide (i ∈ used))
  , terminator := bd.terminator.update_targets (pruneTarget f used) }

/-- Second deletion loop: retain used block params. -/
def filterParams (used : Finset Nat) (bd : BlockDef) : BlockDef :=
  { params := bd.params.filter (fun p => decide (p.2 ∈ used))
  , insts := bd.insts
  , terminator := bd.terminator }

def deleteDead (f : FunctionBody) (used : Finset Nat) : FunctionBody :=
  { f with blocks := (f.blocks.map (deleteDeadBlock f used)).map (filterParams used) }

def resolveAliasFuel (values : List ValueDef) : Nat → Nat → Nat
  | 0, v => v
  | fuel + 1, v =>
    match (values.get? v).getD ValueDef.NoneDef with
    | ValueDef.Alias orig => resolveAliasFuel values fuel orig
    | _ => v

def resolve_alias (f : FunctionBody) (v : Nat) : Nat :=
  resolveAliasFuel f.values (f.values.length + 1) v

/-- waffle `ValueDef::ty(&type_pool)` at the interface the validation reads:
the single static type of a value, `none` when it has none (aliases, empty or
multi-result type lists, `None` defs) — the source `unwrap`s there. -/
def ValueDef.ty : ValueDef → Option WType
  | ValueDef.BlockParam _ _ t => some t
  | ValueDef.PickOutput _ _ t => some t
  | ValueDef.Placeholder t => some t
  | ValueDef.Operator _ _ tys =>
    match tys with
    | [t] => some t
    | _ => none
  | _ => none

def validTarget (f : FunctionBody) (t : BlockTarget) : Bool :=
  (t.args.zip (f.blockDef t.block).params).all
    (fun p => decide ((f.valueDef (resolve_alias f p.1)).ty = some p.2.1))

def validBody (f : FunctionBody) : Bool :=
  f.blocks.all (fun bd => bd.terminator.targets.all (validTarget f))

def run (fuel : Nat) (f : FunctionBody) (cfg : CFGInfo) : Option FunctionBody :=
  match dceLoop (clearUnreachable cfg f) cfg fuel
      ((((clearUnreachable cfg f).blockDef f.entry).params.map Prod.snd).toFinset) with
  | none => none
  | some used =>
    if validBody (deleteDead (clearUnreachable cfg f) used)
    then some (deleteDead (clearUnreachable cfg f) used)
    else none

/-! ### Monotonicity of the liveness scan -/

theorem foldl_subset_preserve {α : Type} (step : Finset Nat × Bool → α → Finset Nat × Bool)
    (hmono : ∀ st a, st.1 ⊆ (step st a).1) :
    ∀ (l : List α) (st : Finset Nat × Bool), st.1 ⊆ (l.foldl step st).1 := by
  intro l
  induction l with
  | nil => intro st; exact Finset.Subset.refl _
  | cons a l ih =>
    intro st
    exact Finset.Subset.trans (hmono st a) (ih (step st a))

theorem chaseList_succ (values : List ValueDef) (fuel arg : Nat) :
    chaseList values (fuel + 1) arg =
      (match (values.get? arg).getD ValueDef.NoneDef with
       | ValueDef.Alias orig => arg :: chaseList values fuel orig
       | _ => [arg]) := rfl

theorem chaseList_self (values : List ValueDef) (fuel arg : Nat) :
    arg ∈ chaseList values (fuel + 1) arg := by
  rw [chaseList_succ]
  cases h : (values.get? arg).getD ValueDef.NoneDef <;> simp

theorem markUsed_mono (f : FunctionBody) (used : Finset Nat) (arg : Nat) :
    used ⊆ (markUsed f used arg).1 :=
  Finset.subset_union_left

theorem markUsed_contains (f : FunctionBody) (used : Finset Nat) (arg : Nat) :
    arg ∈ (markUsed f used arg).1 := by
  apply Finset.mem_union_right
  rw [List.mem_toFinset]
  exact chaseList_self f.values f.values.length arg

theorem markSt_mono (f : FunctionBody) : ∀ (st : Finset Nat × Bool) (a : Nat),
    st.1 ⊆ (markSt f st a).1 :=
  fun st a => markUsed_mono f st.1 a

theorem markSt_contains (f : FunctionBody) (st : Finset Nat × Bool) (a : Nat) :
    a ∈ (markSt f st a).1 :=
  markUsed_contains f st.1 a

theorem markListSt_mono (f : FunctionBody) (args : List Nat) (st : Finset Nat × Bool) :
    st.1 ⊆ (markListSt f st args).1 :=
  foldl_subset_preserve (markSt f) (markSt_mono f) args st

theorem markListSt_contains (f : FunctionBody) :
    ∀ (args : List Nat) (st : Finset Nat × Bool) (a : Nat), a ∈ args →
      a ∈ (markListSt f st args).1 := by
  intro args
  induction args with
  | nil => intro st a h; cases h
  | cons x l ih =>
    intro st a h
    rcases List.mem_cons.1 h with h1 | h2
    · subst h1
      exact markListSt_mono f l (markSt f st a) (markSt_contains f st a)
    · exact ih (markSt f st x) a h2

theorem scanTargetPair_mono (f : FunctionBody) : ∀ (st : Finset Nat × Bool)
    (p : Nat × (WType × Nat)), st.1 ⊆ (scanTargetPair f st p).1 := by
  intro st p
  unfold scanTargetPair
  by_cases h : p.2.2 ∈ st.1
  · rw [if_pos h]
    exact markSt_mono f st p.1
  · rw [if_neg h]

theorem scanTarget_mono (f : FunctionBody) : ∀ (st : Finset Nat × Bool) (t : BlockTarget),
    st.1 ⊆ (scanTarget f st t).1 := by
  intro st t
  exact foldl_subset_preserve (scanTargetPair f) (scanTargetPair_mono f) _ st

theorem scanTermValues_mono (f : FunctionBody) (st : Finset Nat × Bool) (t : Terminator) :
    st.1 ⊆ (scanTermValues f st t).1 := by
  cases t with
  | CondBr c t1 t2 => exact markSt_mono f st c
  | Select v ts d => exact markSt_mono f st v
  | Return vs => exact markListSt_mono f vs st
  | Br t1 => exact Finset.Subset.refl _
  | Unreachable => exact Finset.Subset.refl _
  | NoneTerm => exact Finset.Subset.refl _

theorem scanInst_pick (f : FunctionBody) {inst src idx : Nat} {ty : WType}
    (hdef : f.valueDef inst = ValueDef.PickOutput src idx ty) (st : Finset Nat × Bool) :
    scanInst f st inst = if inst ∈ st.1 then markSt f st src else st := by
  unfold scanInst
  rw [hdef]

theorem scanInst_removable (f : FunctionBody) {inst : Nat} {op : Operator} {args : List Nat}
    {tys : List WType} (hdef : f.valueDef inst = ValueDef.Operator op args tys)
    (hrem : op_can_be_removed op = true) (st : Finset Nat × Bool) :
    scanInst f st inst = if inst ∈ st.1 then markListSt f st args else st := by
  unfold scanInst
  rw [hdef]
  simp [hrem]

theorem scanInst_blockparam (f : FunctionBody) {inst b i : Nat} {ty : WType}
    (hdef : f.valueDef inst = ValueDef.BlockParam b i ty) (st : Finset Nat × Bool) :
    scanInst f st inst = st := by
  unfold scanInst
  rw [hdef]

theorem scanInst_alias (f : FunctionBody) {inst o : Nat}
    (hdef : f.valueDef inst = ValueDef.Alias o) (st : Finset Nat × Bool) :
    scanInst f st inst = st := by
  unfold scanInst
  rw [hdef]

theorem scanInst_placeholder (f : FunctionBody) {inst : Nat} {ty : WType}
    (hdef : f.valueDef inst = ValueDef.Placeholder ty) (st : Finset Nat × Bool) :
    scanInst f st inst = st := by
  unfold scanInst
  rw [hdef]

theorem scanInst_nonedef (f : FunctionBody) {inst : Nat}
    (hdef : f.valueDef inst = ValueDef.NoneDef) (st : Finset Nat × Bool) :
    scanInst f st inst = st := by
  unfold scanInst
  rw [hdef]

/-- Unfolding `scanInst` at a non-removable operator instruction: the
instruction is unconditionally inserted and its args marked. -/
theorem scanInst_nonremovable (f : FunctionBody) {inst : Nat} {op : Operator}
    {args : List Nat} {tys : List WType} (hdef : f.valueDef inst = ValueDef.Operator op args tys)
    (hrem : op_can_be_removed op = false) (st : Finset Nat × Bool) :
    scanInst f st inst
      = markListSt f (insert inst st.1, st.2 || decide (inst ∉ st.1)) args := by
  unfold scanInst
  rw [hdef]
  simp [hrem]

theorem scanInst_mono (f : FunctionBody) : ∀ (st : Finset Nat × Bool) (inst : Nat),
    st.1 ⊆ (scanInst f st inst).1 := by
  intro st inst
  cases hdef : f.valueDef inst with
  | PickOutput src idx ty =>
    rw [scanInst_pick f hdef st]
    by_cases h : inst ∈ st.1
    · rw [if_pos h]
      exact markSt_mono f st src
    · rw [if_neg h]
  | Operator op args tys =>
    by_cases hrem : op_can_be_removed op = true
    · rw [scanInst_removable f hdef hrem st]
      by_cases h : inst ∈ st.1
      · rw [if_pos h]
        exact markListSt_mono f args st
      · rw [if_neg h]
    · rw [scanInst_nonremovable f hdef (eq_false_of_ne_true hrem) st]
      exact Finset.Subset.trans (Finset.subset_insert inst st.1)
        (markListSt_mono f args (insert inst st.1, st.2 || decide (inst ∉ st.1)))
  | BlockParam b i ty =>
    rw [scanInst_blockparam f hdef st]
  | Alias o =>
    rw [scanInst_alias f hdef st]
  | Placeholder ty =>
    rw [scanInst_placeholder f hdef st]
  | NoneDef =>
    rw [scanInst_nonedef f hdef st]

theorem scan_block_mono (f : FunctionBody) (st : Finset Nat × Bool) (b : Nat) :
    st.1 ⊆ (scan_block f st b).1 := by
  unfold scan_block
  refine Finset.Subset.trans ?_ (foldl_subset_preserve (scanInst f) (scanInst_mono f) _ _)
  refine Finset.Subset.trans ?_ (scanTermValues_mono f _ _)
  exact foldl_subset_preserve (scanTarget f) (scanTarget_mono f) _ st

theorem scanInsts_operator (f : FunctionBody) {inst : Nat} {op : Operator} {args : List Nat}
    {tys : List WType} (hdef : f.valueDef inst = ValueDef.Operator op args tys)
    (hrem : op_can_be_removed op = false) :
    ∀ (l : List Nat) (st : Finset Nat × Bool), inst ∈ l →
      inst ∈ (l.foldl (scanInst f) st).1 ∧ ∀ a ∈ args, a ∈ (l.foldl (scanInst f) st).1 := by
  intro l
  induction l with
  | nil => intro st h; cases h
  | cons x l ih =>
    intro st hmem
    rcases List.mem_cons.1 hmem with hx | hl
    · subst hx
      simp only [List.foldl_cons]
      have hfold := foldl_subset_preserve (scanInst f) (scanInst_mono f) l (scanInst f st inst)
      rw [scanInst_nonremovable f hdef hrem st] at hfold ⊢
      constructor
      · apply Finset.mem_of_subset hfold
        apply Finset.mem_of_subset (markListSt_mono f args _)
        exact Finset.mem_insert_self inst st.1
      · intro a ha
        exact Finset.mem_of_subset hfold (markListSt_contains f args _ a ha)
    · simp only [List.foldl_cons]
      exact ih (scanInst f st x) hl

/-- C1: `op_can_be_removed` returns `true` exactly for loads, trap-only
side-effect lists, `table.size`/`memory.size`/`global.get`/`table.get`, and
pure operators — `false` for everything else; and during the liveness scan a
non-removable operator instruction in a block is unconditionally inserted into
the used set and all of its operands are marked used, whatever the incoming
used set was. -/
theorem op_can_be_removed_spec :
    (∀ op : Operator, op_can_be_removed op = true ↔
      (op.is_load = true ∨ op.effects = [SideEffect.Trap] ∨ op.kind = OpKind.TableSize ∨
       op.kind = OpKind.MemorySize ∨ op.kind = OpKind.GlobalGet ∨ op.kind = OpKind.TableGet ∨
       op.is_pure = true)) ∧
    (∀ (f : FunctionBody) (st : Finset Nat × Bool) (b inst : Nat) (op : Operator)
       (args : List Nat) (tys : List WType),
       inst ∈ (f.blockDef b).insts →
       f.valueDef inst = ValueDef.Operator op args tys →
       op_can_be_removed op = false →
       inst ∈ (scan_block f st b).1 ∧ ∀ a ∈ args, a ∈ (scan_block f st b).1) := by
  constructor
  · intro op
    unfold op_can_be_removed
    split_ifs with h1 h2 h3 h4 h5 <;> simp_all <;> tauto
  · intro f st b inst op args tys hmem hdef hrem
    unfold scan_block
    exact scanInsts_operator f hdef hrem _ _ (List.mem_reverse.2 hmem)

/-- C1 witness: a store-like operator (non-trap write effect, not pure, not a
load) in a block is forced into the used set together with its operands. -/
theorem op_can_be_removed_spec_witness :
    (5 : Nat) ∈ (scan_block
        (FunctionBody.mk 0 [BlockDef.mk [] [5] Terminator.Unreachable]
          [ValueDef.NoneDef, ValueDef.NoneDef, ValueDef.NoneDef, ValueDef.NoneDef,
           ValueDef.NoneDef,
           ValueDef.Operator (Operator.mk OpKind.Other false [SideEffect.WriteMem] false)
             [3, 4] []])
        (∅, false) 0).1 ∧
    ∀ a ∈ [3, 4], a ∈ (scan_block
        (FunctionBody.mk 0 [BlockDef.mk [] [5] Terminator.Unreachable]
          [ValueDef.NoneDef, ValueDef.NoneDef, ValueDef.NoneDef, ValueDef.NoneDef,
           ValueDef.NoneDef,
           ValueDef.Operator (Operator.mk OpKind.Other false [SideEffect.WriteMem] false)
             [3, 4] []])
        (∅, false) 0).1 :=
  op_can_be_removed_spec.2
    (FunctionBody.mk 0 [BlockDef.mk [] [5] Terminator.Unreachable]
      [ValueDef.NoneDef, ValueDef.NoneDef, ValueDef.NoneDef, ValueDef.NoneDef,
       ValueDef.NoneDef,
       ValueDef.Operator (Operator.mk OpKind.Other false [SideEffect.WriteMem] false)
         [3, 4] []])
    (∅, false) 0 5
    (Operator.mk OpKind.Other false [SideEffect.WriteMem] false) [3, 4] []
    (by decide) (by decide) (by decide)

/-! ### C7: post-DCE type validation -/

theorem run_some_valid (fuel : Nat) (f : FunctionBody) (cfg : CFGInfo) (f2 : FunctionBody)
    (h : run fuel f cfg = some f2) :
    validBody f2 = true := by
  unfold run at h
  cases hdl : dceLoop (clearUnreachable cfg f) cfg fuel
      ((((clearUnreachable cfg f).blockDef f.entry).params.map Prod.snd).toFinset) with
  | none =>
    rw [hdl] at h
    cases h
  | some used =>
    rw [hdl] at h
    simp only at h
    by_cases hv : validBody (deleteDead (clearUnreachable cfg f) used) = true
    · rw [if_pos hv] at h
      injection h with h
      rw [← h]
      exact hv
    · rw [if_neg hv] at h
      cases h

/-- C7: whenever `dce::run` completes (returns a body rather than halting on
the fatal assertion), every remaining branch argument of every terminator
target, after resolving alias chains, has the declared static type of the
positionally corresponding block parameter of the target block; a violation
makes `run` halt (return `none`) instead. -/
theorem run_type_preservation (fuel : Nat) (f : FunctionBody) (cfg : CFGInfo)
    (f2 : FunctionBody) (h : run fuel f cfg = some f2) :
    ∀ bd ∈ f2.blocks, ∀ t ∈ bd.terminator.targets,
      ∀ p ∈ t.args.zip ((f2.blockDef t.block).params),
        (f2.valueDef (resolve_alias f2 p.1)).ty = some p.2.1 := by
  intro bd hbd t ht p hp
  have hv := run_some_valid fuel f cfg f2 h
  unfold validBody at hv
  have h1 := List.all_eq_true.1 hv bd hbd
  have h2 := List.all_eq_true.1 h1 t ht
  unfold validTarget at h2
  have h3 := List.all_eq_true.1 h2 p hp
  exact of_decide_eq_true h3

/-- A two-block body with one kept branch arg, on which `run` completes
unchanged: block 0 computes an i32 and branches to block 1 passing it as the
blockparam that block 1 returns. -/
def c7Body : FunctionBody :=
  FunctionBody.mk 0
    [BlockDef.mk [] [0] (Terminator.Br (BlockTarget.mk 1 [0])),
     BlockDef.mk [(WType.i32, 1)] [] (Terminator.Return [1])]
    [ValueDef.Operator (Operator.mk OpKind.Other false [] true) [] [WType.i32],
     ValueDef.BlockParam 1 0 WType.i32]

def c7Cfg : CFGInfo := CFGInfo.mk [0, 1] [some 0, some 1]

/-- C7 witness: on `c7Body` the run completes (returning the body itself), and
the theorem instantiated at its one branch arg gives that arg's type check. -/
theorem run_type_preservation_witness :
    (c7Body.valueDef (resolve_alias c7Body 0)).ty = some WType.i32 :=
  run_type_preservation 3 c7Body c7Cfg c7Body (by decide)
    (BlockDef.mk [] [0] (Terminator.Br (BlockTarget.mk 1 [0]))) (by decide)
    (BlockTarget.mk 1 [0]) (by decide)
    (0, (WType.i32, 1)) (by decide)

/-! ### C9 groundwork: generic facts about the scan folds

The liveness scan is a family of folds over a state `Finset Nat × Bool`; every
step grows the set, only raises the flag, and leaves the state untouched when
it reports no change.
-/

theorem foldl_flag_preserve {α : Type} (step : Finset Nat × Bool → α → Finset Nat × Bool)
    (hflag : ∀ st a, st.2 = true → (step st a).2 = true) :
    ∀ (l : List α) (st : Finset Nat × Bool), st.2 = true → (l.foldl step st).2 = true := by
  intro l
  induction l with
  | nil => intro st h; exact h
  | cons a l ih => intro st h; exact ih (step st a) (hflag st a h)

theorem foldl_nochange_eq {α : Type} (step : Finset Nat × Bool → α → Finset Nat × Bool)
    (hflag : ∀ st a, st.2 = true → (step st a).2 = true)
    (hnc : ∀ st a, (step st a).2 = false → step st a = st) :
    ∀ (l : List α) (st : Finset Nat × Bool), (l.foldl step st).2 = false →
      l.foldl step st = st := by
  intro l
  induction l with
  | nil => intro st h; rfl
  | cons a l ih =>
    intro st h
    simp only [List.foldl_cons] at h ⊢
    have h1 := ih (step st a) h
    rw [h1] at h ⊢
    exact hnc st a h

theorem foldl_mem_extract {α : Type} (step : Finset Nat × Bool → α → Finset Nat × Bool)
    (hmono : ∀ st a, st.1 ⊆ (step st a).1)
    (hflag : ∀ st a, st.2 = true → (step st a).2 = true) :
    ∀ (l : List α) (U : Finset Nat), l.foldl step (U, false) = (U, false) →
      ∀ a ∈ l, step (U, false) a = (U, false) := by
  intro l
  induction l with
  | nil => intro U h a ha; cases ha
  | cons x l ih =>
    intro U h a ha
    simp only [List.foldl_cons] at h
    have hsub1 : U ⊆ (step (U, false) x).1 := hmono (U, false) x
    have hsub2 : (step (U, false) x).1 ⊆ (l.foldl step (step (U, false) x)).1 :=
      foldl_subset_preserve step hmono l _
    have hU : (step (U, false) x).1 = U := by
      apply Finset.Subset.antisymm
      · intro y hy
        have := hsub2 hy
        rw [h] at this
        exact this
      · exact hsub1
    have hfl : (step (U, false) x).2 = false := by
      by_contra hc
      have : (l.foldl step (step (U, false) x)).2 = true :=
        foldl_flag_preserve step hflag l _ (Bool.not_eq_false _ ▸ Bool.of_not_eq_false hc)
      rw [h] at this
      cases this
    have hx : step (U, false) x = (U, false) := by
      have := Prod.mk.eta (p := step (U, false) x)
      rw [← this, hU, hfl]
    rcases List.mem_cons.1 ha with h1 | h2
    · rw [h1]
      exact hx
    · rw [hx] at h
      exact ih U h a h2

theorem foldl_bound_mem {α : Type} (step : Finset Nat × Bool → α → Finset Nat × Bool)
    (l : List α) (V : Finset Nat)
    (hstep : ∀ a ∈ l, ∀ st, st.1 ⊆ V → (step st a).1 ⊆ V) :
    ∀ st, st.1 ⊆ V → (l.foldl step st).1 ⊆ V := by
  induction l with
  | nil => intro st h; exact h
  | cons a l ih =>
    intro st h
    simp only [List.foldl_cons]
    exact ih (fun b hb => hstep b (List.mem_cons_of_mem a hb))
      (step st a) (hstep a (List.mem_cons_self a l) st h)

/-! Flag monotonicity of every scan step. -/

theorem markSt_flag (f : FunctionBody) : ∀ (st : Finset Nat × Bool) (a : Nat),
    st.2 = true → (markSt f st a).2 = true := by
  intro st a h
  unfold markSt
  rw [h]
  rfl

theorem scanTargetPair_flag (f : FunctionBody) : ∀ (st : Finset Nat × Bool)
    (p : Nat × (WType × Nat)), st.2 = true → (scanTargetPair f st p).2 = true := by
  intro st p h
  unfold scanTargetPair
  by_cases hm : p.2.2 ∈ st.1
  · rw [if_pos hm]
    exact markSt_flag f st p.1 h
  · rw [if_neg hm]
    exact h

theorem scanTarget_flag (f : FunctionBody) : ∀ (st : Finset Nat × Bool) (t : BlockTarget),
    st.2 = true → (scanTarget f st t).2 = true := by
  intro st t h
  exact foldl_flag_preserve (scanTargetPair f) (scanTargetPair_flag f) _ st h

theorem markListSt_flag (f : FunctionBody) (args : List Nat) (st : Finset Nat × Bool)
    (h : st.2 = true) : (markListSt f st args).2 = true :=
  foldl_flag_preserve (markSt f) (markSt_flag f) args st h

theorem scanTermValues_flag (f : FunctionBody) (st : Finset Nat × Bool) (t : Terminator)
    (h : st.2 = true) : (scanTermValues f st t).2 = true := by
  cases t with
  | CondBr c t1 t2 => exact markSt_flag f st c h
  | Select v ts d => exact markSt_flag f st v h
  | Return vs => exact markListSt_flag f vs st h
  | Br t1 => exact h
  | Unreachable => exact h
  | NoneTerm => exact h

theorem scanInst_flag (f : FunctionBody) : ∀ (st : Finset Nat × Bool) (inst : Nat),
    st.2 = true → (scanInst f st inst).2 = true := by
  intro st inst h
  cases hdef : f.valueDef inst with
  | PickOutput src idx ty =>
    rw [scanInst_pick f hdef st]
    by_cases hm : inst ∈ st.1
    · rw [if_pos hm]; exact markSt_flag f st src h
    · rw [if_neg hm]; exact h
  | Operator op args tys =>
    by_cases hrem : op_can_be_removed op = true
    · rw [scanInst_removable f hdef hrem st]
      by_cases hm : inst ∈ st.1
      · rw [if_pos hm]; exact markListSt_flag f args st h
      · rw [if_neg hm]; exact h
    · rw [scanInst_nonremovable f hdef (eq_false_of_ne_true hrem) st]
      apply markListSt_flag
      rw [h]
      rfl
  | BlockParam b i ty => rw [scanInst_blockparam f hdef st]; exact h
  | Alias o => rw [scanInst_alias f hdef st]; exact h
  | Placeholder ty => rw [scanInst_placeholder f hdef st]; exact h
  | NoneDef => rw [scanInst_nonedef f hdef st]; exact h

theorem scan_block_flag (f : FunctionBody) : ∀ (st : Finset Nat × Bool) (b : Nat),
    st.2 = true → (scan_block f st b).2 = true := by
  intro st b h
  unfold scan_block
  apply foldl_flag_preserve (scanInst f) (scanInst_flag f)
  apply scanTermValues_flag
  exact foldl_flag_preserve (scanTarget f) (scanTarget_flag f) _ st h

/-! No-change: a step reporting `false` left the state untouched. -/

theorem markUsed_nochange (f : FunctionBody) (u : Finset Nat) (a : Nat)
    (h : (markUsed f u a).2 = false) : markUsed f u a = (u, false) := by
  have hdec : decide (¬(chaseList f.values (f.values.length + 1) a).toFinset ⊆ u) = false := h
  have hsub : (chaseList f.values (f.values.length + 1) a).toFinset ⊆ u :=
    not_not.1 (of_decide_eq_false hdec)
  show (u ∪ (chaseList f.values (f.values.length + 1) a).toFinset,
      decide (¬(chaseList f.values (f.values.length + 1) a).toFinset ⊆ u)) = (u, false)
  rw [Finset.union_eq_left.2 hsub, hdec]

theorem markSt_nochange (f : FunctionBody) : ∀ (st : Finset Nat × Bool) (a : Nat),
    (markSt f st a).2 = false → markSt f st a = st := by
  intro st a h
  unfold markSt at h ⊢
  simp only [Bool.or_eq_false_iff] at h
  rw [markUsed_nochange f st.1 a h.2]
  show (st.1, st.2 || false) = st
  rw [Bool.or_false]

theorem scanTargetPair_nochange (f : FunctionBody) : ∀ (st : Finset Nat × Bool)
    (p : Nat × (WType × Nat)), (scanTargetPair f st p).2 = false →
      scanTargetPair f st p = st := by
  intro st p h
  unfold scanTargetPair at h ⊢
  by_cases hm : p.2.2 ∈ st.1
  · rw [if_pos hm] at h ⊢
    exact markSt_nochange f st p.1 h
  · rw [if_neg hm]

theorem scanTarget_nochange (f : FunctionBody) : ∀ (st : Finset Nat × Bool)
    (t : BlockTarget), (scanTarget f st t).2 = false → scanTarget f st t = st := by
  intro st t h
  exact foldl_nochange_eq (scanTargetPair f) (scanTargetPair_flag f)
    (scanTargetPair_nochange f) _ st h

theorem markListSt_nochange (f : FunctionBody) (args : List Nat) (st : Finset Nat × Bool)
    (h : (markListSt f st args).2 = false) : markListSt f st args = st :=
  foldl_nochange_eq (markSt f) (markSt_flag f) (markSt_nochange f) args st h

theorem scanTermValues_nochange (f : FunctionBody) (st : Finset Nat × Bool) (t : Terminator)
    (h : (scanTermValues f st t).2 = false) : scanTermValues f st t = st := by
  cases t with
  | CondBr c t1 t2 => exact markSt_nochange f st c h
  | Select v ts d => exact markSt_nochange f st v h
  | Return vs => exact markListSt_nochange f vs st h
  | Br t1 => rfl
  | Unreachable => rfl
  | NoneTerm => rfl

theorem scanInst_nochange (f : FunctionBody) : ∀ (st : Finset Nat × Bool) (inst : Nat),
    (scanInst f st inst).2 = false → scanInst f st inst = st := by
  intro st inst h
  cases hdef : f.valueDef inst with
  | PickOutput src idx ty =>
    rw [scanInst_pick f hdef st] at h ⊢
    by_cases hm : inst ∈ st.1
    · rw [if_pos hm] at h ⊢
      exact markSt_nochange f st src h
    · rw [if_neg hm]
  | Operator op args tys =>
    by_cases hrem : op_can_be_removed op = true
    · rw [scanInst_removable f hdef hrem st] at h ⊢
      by_cases hm : inst ∈ st.1
      · rw [if_pos hm] at h ⊢
        exact markListSt_nochange f args st h
      · rw [if_neg hm]
    · rw [scanInst_nonremovable f hdef (eq_false_of_ne_true hrem) st] at h ⊢
      have hst2 : (st.2 || decide (inst ∉ st.1)) = false := by
        cases hx : st.2 || decide (inst ∉ st.1) with
        | false => rfl
        | true =>
          have hflag := markListSt_flag f args
            (insert inst st.1, st.2 || decide (inst ∉ st.1)) (by rw [hx])
          rw [hflag] at h
          cases h
      obtain ⟨hst, hin⟩ := Bool.or_eq_false_iff.1 hst2
      have hinst : inst ∈ st.1 := not_not.1 (of_decide_eq_false hin)
      have hins : insert inst st.1 = st.1 := Finset.insert_eq_self.2 hinst
      rw [hst2, hins] at h ⊢
      rw [markListSt_nochange f args (st.1, false) h]
      rw [show st = (st.1, st.2) from rfl, hst]
  | BlockParam b i ty => rw [scanInst_blockparam f hdef st]
  | Alias o => rw [scanInst_alias f hdef st]
  | Placeholder ty => rw [scanInst_placeholder f hdef st]
  | NoneDef => rw [scanInst_nonedef f hdef st]

theorem scan_block_nochange (f : FunctionBody) : ∀ (st : Finset Nat × Bool) (b : Nat),
    (scan_block f st b).2 = false → scan_block f st b = st := by
  intro st b h
  unfold scan_block at h ⊢
  have h3 := foldl_nochange_eq (scanInst f) (scanInst_flag f) (scanInst_nochange f) _ _ h
  rw [h3] at h ⊢
  have h2 := scanTermValues_nochange f _ _ h
  rw [h2] at h ⊢
  exact foldl_nochange_eq (scanTarget f) (scanTarget_flag f) (scanTarget_nochange f) _ _ h

theorem scanAll_nochange (f : FunctionBody) (cfg : CFGInfo) (s : Finset Nat)
    (h : (scanAll f cfg s).2 = false) : scanAll f cfg s = (s, false) := by
  unfold scanAll at h ⊢
  exact foldl_nochange_eq (scan_block f) (scan_block_flag f) (scan_block_nochange f) _ _ h

theorem scanAll_mono (f : FunctionBody) (cfg : CFGInfo) (s : Finset Nat) :
    s ⊆ (scanAll f cfg s).1 :=
  foldl_subset_preserve (scan_block f) (fun st b => scan_block_mono f st b) _ (s, false)

/-- Exiting the fixed-point loop: the returned set contains the seed and is a
fixpoint of the whole-body scan. -/
theorem dceLoop_fix (f : FunctionBody) (cfg : CFGInfo) :
    ∀ (fuel : Nat) (s U : Finset Nat), dceLoop f cfg fuel s = some U →
      s ⊆ U ∧ scanAll f cfg U = (U, false) := by
  intro fuel
  induction fuel with
  | zero => intro s U h; cases h
  | succ fuel ih =>
    intro s U h
    unfold dceLoop at h
    by_cases hch : (scanAll f cfg s).2 = true
    · rw [if_pos hch] at h
      obtain ⟨h1, h2⟩ := ih _ U h
      exact ⟨Finset.Subset.trans (scanAll_mono f cfg s) h1, h2⟩
    · rw [if_neg hch] at h
      injection h with h
      have hfix := scanAll_nochange f cfg s (eq_false_of_ne_true hch)
      have hsU : s = U := by
        rw [hfix] at h
        exact h
      subst hsU
      exact ⟨Finset.Subset.refl s, by rw [hfix]⟩

theorem dceLoop_bound (f : FunctionBody) (cfg : CFGInfo) (V : Finset Nat)
    (hstep : ∀ b ∈ cfg.rpo, ∀ st : Finset Nat × Bool, st.1 ⊆ V → (scan_block f st b).1 ⊆ V) :
    ∀ (fuel : Nat) (s U : Finset Nat), s ⊆ V → dceLoop f cfg fuel s = some U → U ⊆ V := by
  have hscan : ∀ s : Finset Nat, s ⊆ V → (scanAll f cfg s).1 ⊆ V := by
    intro s hs
    unfold scanAll
    refine foldl_bound_mem (scan_block f) cfg.rpo.reverse V ?_ (s, false) hs
    intro b hb st hst
    exact hstep b (List.mem_reverse.1 hb) st hst
  intro fuel
  induction fuel with
  | zero => intro s U hs h; cases h
  | succ fuel ih =>
    intro s U hs h
    unfold dceLoop at h
    by_cases hch : (scanAll f cfg s).2 = true
    · rw [if_pos hch] at h
      exact ih _ U (hscan s hs) h
    · rw [if_neg hch] at h
      injection h with h
      rw [← h]
      exact hscan s hs

/-! ### Fixpoint facts per block -/

/-- The closure of `U` under one `mark_used` chase from `a`. -/
def ChClosed (f : FunctionBody) (U : Finset Nat) (a : Nat) : Prop :=
  (chaseList f.values (f.values.length + 1) a).toFinset ⊆ U

theorem ChClosed.mem {f : FunctionBody} {U : Finset Nat} {a : Nat} (h : ChClosed f U a) :
    a ∈ U :=
  h (List.mem_toFinset.2 (chaseList_self f.values f.values.length a))

theorem markSt_fix_iff (f : FunctionBody) (U : Finset Nat) (a : Nat) :
    markSt f (U, false) a = (U, false) ↔ ChClosed f U a := by
  constructor
  · intro h
    have hfl : (markSt f (U, false) a).2 = false := by rw [h]
    have hfl2 : (markUsed f U a).2 = false := by
      unfold markSt at hfl
      simpa using hfl
    have hdec : decide (¬(chaseList f.values (f.values.length + 1) a).toFinset ⊆ U) = false :=
      hfl2
    have hsub2 : ¬¬((chaseList f.values (f.values.length + 1) a).toFinset ⊆ U) :=
      of_decide_eq_false hdec
    exact not_not.1 hsub2
  · intro h
    unfold markSt markUsed
    simp only
    rw [Finset.union_eq_left.2 h]
    have hsub : (chaseList f.values (f.values.length + 1) a).toFinset ⊆ U := h
    have : decide (¬(chaseList f.values (f.values.length + 1) a).toFinset ⊆ U) = false :=
      decide_eq_false (not_not.2 hsub)
    rw [this]
    rfl

theorem markSt_bound (f : FunctionBody) {U : Finset Nat} {a : Nat} (h : ChClosed f U a) :
    ∀ st : Finset Nat × Bool, st.1 ⊆ U → (markSt f st a).1 ⊆ U := by
  intro st hst
  unfold markSt markUsed
  simp only
  exact Finset.union_subset hst h

theorem markListSt_fix (f : FunctionBody) {U : Finset Nat} {args : List Nat}
    (h : markListSt f (U, false) args = (U, false)) :
    ∀ a ∈ args, ChClosed f U a := by
  intro a ha
  exact (markSt_fix_iff f U a).1
    (foldl_mem_extract (markSt f) (markSt_mono f) (markSt_flag f) args U h a ha)

theorem markListSt_bound (f : FunctionBody) {U : Finset Nat} {args : List Nat}
    (h : ∀ a ∈ args, ChClosed f U a) :
    ∀ st : Finset Nat × Bool, st.1 ⊆ U → (markListSt f st args).1 ⊆ U := by
  intro st hst
  refine foldl_bound_mem (markSt f) args U ?_ st hst
  intro a ha st2 hst2
  exact markSt_bound f (h a ha) st2 hst2

/-- The per-block closure facts that a used-set fixpoint of the scan
satisfies: they are exactly what one `scan_block` pass consumes. -/
def BlockFacts (f : FunctionBody) (V : Finset Nat) (b : Nat) : Prop :=
  (∀ t ∈ (f.blockDef b).terminator.targets,
    ∀ pr ∈ t.args.zip ((f.blockDef t.block).params), pr.2.2 ∈ V → ChClosed f V pr.1) ∧
  (∀ c t1 t2, (f.blockDef b).terminator = Terminator.CondBr c t1 t2 → ChClosed f V c) ∧
  (∀ v ts d, (f.blockDef b).terminator = Terminator.Select v ts d → ChClosed f V v) ∧
  (∀ vs, (f.blockDef b).terminator = Terminator.Return vs → ∀ a ∈ vs, ChClosed f V a) ∧
  (∀ i ∈ (f.blockDef b).insts, ∀ op args tys,
    f.valueDef i = ValueDef.Operator op args tys →
      (op_can_be_removed op = false → i ∈ V) ∧ (i ∈ V → ∀ a ∈ args, ChClosed f V a)) ∧
  (∀ i ∈ (f.blockDef b).insts, ∀ src idx ty,
    f.valueDef i = ValueDef.PickOutput src idx ty → i ∈ V → ChClosed f V src)

theorem scan_block_parts_fix (f : FunctionBody) (V : Finset Nat) (b : Nat)
    (h : scan_block f (V, false) b = (V, false)) :
    ((f.blockDef b).terminator.targets.foldl (scanTarget f) (V, false) = (V, false)) ∧
    (scanTermValues f (V, false) (f.blockDef b).terminator = (V, false)) ∧
    ((f.blockDef b).insts.reverse.foldl (scanInst f) (V, false) = (V, false)) := by
  have hfl : (scan_block f (V, false) b).2 = false := by rw [h]
  unfold scan_block at hfl
  have hc2fl : (scanTermValues f
      ((f.blockDef b).terminator.targets.foldl (scanTarget f) (V, false))
      (f.blockDef b).terminator).2 = false := by
    cases hx : (scanTermValues f
        ((f.blockDef b).terminator.targets.foldl (scanTarget f) (V, false))
        (f.blockDef b).terminator).2 with
    | false => rfl
    | true =>
      have := foldl_flag_preserve (scanInst f) (scanInst_flag f)
        (f.blockDef b).insts.reverse _ hx
      rw [this] at hfl
      cases hfl
  have hc1fl : ((f.blockDef b).terminator.targets.foldl (scanTarget f) (V, false)).2
      = false := by
    cases hx : ((f.blockDef b).terminator.targets.foldl (scanTarget f) (V, false)).2 with
    | false => rfl
    | true =>
      have := scanTermValues_flag f _ (f.blockDef b).terminator hx
      rw [this] at hc2fl
      cases hc2fl
  have h1 : (f.blockDef b).terminator.targets.foldl (scanTarget f) (V, false) = (V, false) :=
    foldl_nochange_eq (scanTarget f) (scanTarget_flag f) (scanTarget_nochange f) _ _ hc1fl
  have h2 : scanTermValues f (V, false) (f.blockDef b).terminator = (V, false) := by
    rw [h1] at hc2fl
    exact scanTermValues_nochange f _ _ hc2fl
  refine ⟨h1, h2, ?_⟩
  unfold scan_block at h
  rw [h1, h2] at h
  exact h

theorem scan_block_fix_facts (f : FunctionBody) (V : Finset Nat) (b : Nat)
    (h : scan_block f (V, false) b = (V, false)) : BlockFacts f V b := by
  obtain ⟨h1, h2, h3⟩ := scan_block_parts_fix f V b h
  refine ⟨?_, ?_, ?_, ?_, ?_, ?_⟩
  · intro t ht pr hpr hmem
    have hst := foldl_mem_extract (scanTarget f) (scanTarget_mono f) (scanTarget_flag f)
      _ V h1 t ht
    have hpr2 := foldl_mem_extract (scanTargetPair f) (scanTargetPair_mono f)
      (scanTargetPair_flag f) _ V hst pr hpr
    unfold scanTargetPair at hpr2
    rw [if_pos hmem] at hpr2
    exact (markSt_fix_iff f V pr.1).1 hpr2
  · intro c t1 t2 hterm
    rw [hterm] at h2
    exact (markSt_fix_iff f V c).1 h2
  · intro v ts d hterm
    rw [hterm] at h2
    exact (markSt_fix_iff f V v).1 h2
  · intro vs hterm
    rw [hterm] at h2
    exact markListSt_fix f h2
  · intro i hi op args tys hdef
    have hfix := foldl_mem_extract (scanInst f) (scanInst_mono f) (scanInst_flag f)
      _ V h3 i (List.mem_reverse.2 hi)
    by_cases hrem : op_can_be_removed op = true
    · refine ⟨?_, ?_⟩
      · intro hc
        rw [hrem] at hc
        exact absurd hc (by decide)
      intro hmem a ha
      rw [scanInst_removable f hdef hrem _] at hfix
      rw [if_pos hmem] at hfix
      exact markListSt_fix f hfix a ha
    · have hremf := eq_false_of_ne_true hrem
      rw [scanInst_nonremovable f hdef hremf _] at hfix
      have hiV : i ∈ V := by
        have hmono := markListSt_mono f args
          (insert i V, false || decide (i ∉ V))
        rw [hfix] at hmono
        exact hmono (Finset.mem_insert_self i V)
      refine ⟨fun _ => hiV, ?_⟩
      intro _ a ha
      rw [Finset.insert_eq_self.2 hiV,
        show (decide (i ∉ V)) = false from decide_eq_false (not_not.2 hiV)] at hfix
      exact markListSt_fix f (by simpa using hfix) a ha
  · intro i hi src idx ty hdef hmem
    have hfix := foldl_mem_extract (scanInst f) (scanInst_mono f) (scanInst_flag f)
      _ V h3 i (List.mem_reverse.2 hi)
    rw [scanInst_pick f hdef _] at hfix
    rw [if_pos hmem] at hfix
    exact (markSt_fix_iff f V src).1 hfix

theorem scan_block_bound (f : FunctionBody) (V : Finset Nat) (b : Nat)
    (hf : BlockFacts f V b) :
    ∀ st : Finset Nat × Bool, st.1 ⊆ V → (scan_block f st b).1 ⊆ V := by
  obtain ⟨hT, hC, hS, hR, hO, hP⟩ := hf
  intro st hst
  unfold scan_block
  have hb1 : ∀ st2 : Finset Nat × Bool, st2.1 ⊆ V →
      ((f.blockDef b).terminator.targets.foldl (scanTarget f) st2).1 ⊆ V := by
    intro st2 hst2
    refine foldl_bound_mem (scanTarget f) _ V ?_ st2 hst2
    intro t ht st3 hst3
    refine foldl_bound_mem (scanTargetPair f) _ V ?_ st3 hst3
    intro pr hpr st4 hst4
    unfold scanTargetPair
    by_cases hmem : pr.2.2 ∈ st4.1
    · rw [if_pos hmem]
      exact markSt_bound f (hT t ht pr hpr (hst4 hmem)) st4 hst4
    · rw [if_neg hmem]
      exact hst4
  have hb2 : ∀ st2 : Finset Nat × Bool, st2.1 ⊆ V →
      (scanTermValues f st2 (f.blockDef b).terminator).1 ⊆ V := by
    intro st2 hst2
    cases hterm : (f.blockDef b).terminator with
    | CondBr c t1 t2 => exact markSt_bound f (hC c t1 t2 hterm) st2 hst2
    | Select v ts d => exact markSt_bound f (hS v ts d hterm) st2 hst2
    | Return vs => exact markListSt_bound f (hR vs hterm) st2 hst2
    | Br t1 => exact hst2
    | Unreachable => exact hst2
    | NoneTerm => exact hst2
  have hb3 : ∀ st2 : Finset Nat × Bool, st2.1 ⊆ V →
      ((f.blockDef b).insts.reverse.foldl (scanInst f) st2).1 ⊆ V := by
    intro st2 hst2
    refine foldl_bound_mem (scanInst f) _ V ?_ st2 hst2
    intro i hi st3 hst3
    have hi2 : i ∈ (f.blockDef b).insts := List.mem_reverse.1 hi
    cases hdef : f.valueDef i with
    | Operator op args tys =>
      by_cases hrem : op_can_be_removed op = true
      · rw [scanInst_removable f hdef hrem st3]
        by_cases hmem : i ∈ st3.1
        · rw [if_pos hmem]
          exact markListSt_bound f ((hO i hi2 op args tys hdef).2 (hst3 hmem)) st3 hst3
        · rw [if_neg hmem]
          exact hst3
      · rw [scanInst_nonremovable f hdef (eq_false_of_ne_true hrem) st3]
        have hiV : i ∈ V := (hO i hi2 op args tys hdef).1 (eq_false_of_ne_true hrem)
        refine markListSt_bound f ((hO i hi2 op args tys hdef).2 hiV) _ ?_
        exact Finset.insert_subset hiV hst3
    | PickOutput src idx ty =>
      rw [scanInst_pick f hdef st3]
      by_cases hmem : i ∈ st3.1
      · rw [if_pos hmem]
        exact markSt_bound f (hP i hi2 src idx ty hdef (hst3 hmem)) st3 hst3
      · rw [if_neg hmem]
        exact hst3
    | BlockParam b2 i2 ty => rw [scanInst_blockparam f hdef st3]; exact hst3
    | Alias o => rw [scanInst_alias f hdef st3]; exact hst3
    | Placeholder ty => rw [scanInst_placeholder f hdef st3]; exact hst3
    | NoneDef => rw [scanInst_nonedef f hdef st3]; exact hst3
  exact hb3 _ (hb2 _ (hb1 st hst))

/-! ### Relating a body to its post-deletion form -/

theorem removeArgsAux_shift (p : WType × Nat) (ps : List (WType × Nat)) (used : Finset Nat) :
    ∀ (as : List Nat) (i : Nat),
      removeArgsAux (p :: ps) used (i + 1) as = removeArgsAux ps used i as := by
  intro as
  induction as with
  | nil => intro i; rfl
  | cons a as ih =>
    intro i
    unfold removeArgsAux
    rw [List.get?_cons_succ, ih (i + 1)]

theorem removeArgs_nil (ps : List (WType × Nat)) (used : Finset Nat) :
    removeArgs ps used [] = [] := rfl

theorem removeArgs_cons (p : WType × Nat) (ps : List (WType × Nat)) (used : Finset Nat)
    (a : Nat) (as : List Nat) :
    removeArgs (p :: ps) used (a :: as)
      = if p.2 ∈ used then a :: removeArgs ps used as else removeArgs ps used as := by
  conv_lhs => unfold removeArgs removeArgsAux
  conv_rhs => unfold removeArgs
  rw [removeArgsAux_shift, List.get?_cons_zero, Option.getD_some]

theorem removeArgs_zip_filter (U : Finset Nat) :
    ∀ (as : List Nat) (ps : List (WType × Nat)), as.length ≤ ps.length →
      (removeArgs ps U as).zip (ps.filter (fun p => decide (p.2 ∈ U)))
        = (as.zip ps).filter (fun q => decide (q.2.2 ∈ U)) := by
  intro as
  induction as with
  | nil => intro ps h; simp [removeArgs_nil]
  | cons a as ih =>
    intro ps h
    cases ps with
    | nil => simp at h
    | cons p ps =>
      have h2 : as.length ≤ ps.length := by
        simp only [List.length_cons] at h
        omega
      rw [removeArgs_cons, List.zip_cons_cons, List.filter_cons, List.filter_cons]
      simp only [decide_eq_true_eq]
      by_cases hp : p.2 ∈ U
      · rw [if_pos hp, if_pos hp, List.zip_cons_cons, ih ps h2, if_pos hp]
      · rw [if_neg hp, if_neg hp, ih ps h2, if_neg hp]

theorem removeArgs_length_le (U : Finset Nat) :
    ∀ (as : List Nat) (ps : List (WType × Nat)), as.length ≤ ps.length →
      (removeArgs ps U as).length ≤ (ps.filter (fun p => decide (p.2 ∈ U))).length := by
  intro as
  induction as with
  | nil => intro ps h; simp [removeArgs_nil]
  | cons a as ih =>
    intro ps h
    cases ps with
    | nil => simp at h
    | cons p ps =>
      have h2 : as.length ≤ ps.length := by
        simp only [List.length_cons] at h
        omega
      rw [removeArgs_cons, List.filter_cons]
      simp only [decide_eq_true_eq]
      by_cases hp : p.2 ∈ U
      · rw [if_pos hp, if_pos hp]
        simp only [List.length_cons]
        exact Nat.succ_le_succ (ih ps h2)
      · rw [if_neg hp, if_neg hp]
        exact ih ps h2

theorem removeArgs_all_kept (U : Finset Nat) :
    ∀ (as : List Nat) (ps : List (WType × Nat)),
      (∀ i a, as.get? i = some a → ∃ p, ps.get? i = some p ∧ p.2 ∈ U) →
      removeArgs ps U as = as := by
  intro as
  induction as with
  | nil => intro ps h; rfl
  | cons a as ih =>
    intro ps h
    obtain ⟨p, hp0, hpU⟩ := h 0 a rfl
    cases ps with
    | nil => cases hp0
    | cons p0 ps =>
      rw [List.get?_cons_zero] at hp0
      injection hp0 with hp0
      subst hp0
      rw [removeArgs_cons, if_pos hpU]
      congr 1
      apply ih ps
      intro i a2 ha2
      obtain ⟨p2, hp2, hp2U⟩ := h (i + 1) a2 (by rw [List.get?_cons_succ]; exact ha2)
      rw [List.get?_cons_succ] at hp2
      exact ⟨p2, hp2, hp2U⟩

theorem zip_get? {α β : Type} : ∀ (l1 : List α) (l2 : List β) (i : Nat) (x : α) (y : β),
    (l1.zip l2).get? i = some (x, y) → l1.get? i = some x ∧ l2.get? i = some y := by
  intro l1
  induction l1 with
  | nil => intro l2 i x y h; simp [List.zip] at h
  | cons a l1 ih =>
    intro l2 i x y h
    cases l2 with
    | nil => simp [List.zip] at h
    | cons b l2 =>
      rw [List.zip_cons_cons] at h
      cases i with
      | zero =>
        rw [List.get?_cons_zero] at h
        injection h with h
        injection h with h1 h2
        subst h1
        subst h2
        exact ⟨rfl, rfl⟩
      | succ i =>
        rw [List.get?_cons_succ] at h
        rw [List.get?_cons_succ, List.get?_cons_succ]
        exact ih l2 i x y h

theorem removeArgs_idem (U : Finset Nat) (as : List Nat) (ps : List (WType × Nat))
    (h : as.length ≤ ps.length) :
    removeArgs (ps.filter (fun p => decide (p.2 ∈ U))) U (removeArgs ps U as)
      = removeArgs ps U as := by
  apply removeArgs_all_kept
  intro i a hga
  have hilt : i < (removeArgs ps U as).length := by
    by_contra hc
    rw [List.get?_eq_none.2 (Nat.le_of_not_lt hc)] at hga
    cases hga
  have hilt2 : i < (ps.filter (fun p => decide (p.2 ∈ U))).length :=
    Nat.lt_of_lt_of_le hilt (removeArgs_length_le U as ps h)
  cases hp : (ps.filter (fun p => decide (p.2 ∈ U))).get? i with
  | none =>
    rw [List.get?_eq_none] at hp
    exact absurd hp (Nat.not_le_of_lt hilt2)
  | some p =>
    refine ⟨p, rfl, ?_⟩
    have hzip : ((removeArgs ps U as).zip
        (ps.filter (fun p2 => decide (p2.2 ∈ U)))).get? i = some (a, p) := by
      have hlen : i < ((removeArgs ps U as).zip
          (ps.filter (fun p2 => decide (p2.2 ∈ U)))).length := by
        rw [List.length_zip]
        exact Nat.lt_min.2 ⟨hilt, hilt2⟩
      cases hz : ((removeArgs ps U as).zip
          (ps.filter (fun p2 => decide (p2.2 ∈ U)))).get? i with
      | none =>
        rw [List.get?_eq_none] at hz
        exact absurd hz (Nat.not_le_of_lt hlen)
      | some q =>
        obtain ⟨hq1, hq2⟩ := zip_get? _ _ i q.1 q.2 (by rw [hz])
        rw [hga] at hq1
        rw [hp] at hq2
        injection hq1 with hq1
        injection hq2 with hq2
        rw [hq1, hq2]
    rw [removeArgs_zip_filter U as ps h] at hzip
    have hmem := List.get?_mem hzip
    have := (List.mem_filter.1 hmem).2
    exact of_decide_eq_true this

theorem targets_update (g : BlockTarget → BlockTarget) (t : Terminator) :
    (Terminator.update_targets g t).targets = t.targets.map g := by
  cases t <;> simp [Terminator.update_targets, Terminator.targets]

theorem update_targets_comp (g1 g2 : BlockTarget → BlockTarget) (t : Terminator) :
    Terminator.update_targets g1 (Terminator.update_targets g2 t)
      = Terminator.update_targets (fun x => g1 (g2 x)) t := by
  cases t <;> simp [Terminator.update_targets]

theorem update_targets_congr {g1 g2 : BlockTarget → BlockTarget} (t : Terminator)
    (h : ∀ x ∈ t.targets, g1 x = g2 x) :
    Terminator.update_targets g1 t = Terminator.update_targets g2 t := by
  cases t with
  | Br tg =>
    simp only [Terminator.update_targets]
    rw [h tg (by simp [Terminator.targets])]
  | CondBr c t1 t2 =>
    simp only [Terminator.update_targets]
    rw [h t1 (by simp [Terminator.targets]), h t2 (by simp [Terminator.targets])]
  | Select v ts d =>
    simp only [Terminator.update_targets]
    rw [h d (by simp [Terminator.targets]),
      List.map_congr_left (fun x hx => h x (by simp [Terminator.targets, hx]))]
  | Return vs => rfl
  | Unreachable => rfl
  | NoneTerm => rfl

theorem filterParams_deleteDeadBlock_empty (f : FunctionBody) (U : Finset Nat) :
    filterParams U (deleteDeadBlock f U emptyBlock) = emptyBlock := rfl

theorem deleteDead_blockDef (f : FunctionBody) (U : Finset Nat) (b : Nat) :
    (deleteDead f U).blockDef b = filterParams U (deleteDeadBlock f U (f.blockDef b)) := by
  show ((((f.blocks.map (deleteDeadBlock f U)).map (filterParams U))).get? b).getD emptyBlock
    = _
  rw [List.get?_map, List.get?_map]
  unfold FunctionBody.blockDef
  cases h : f.blocks.get? b with
  | some bd => simp [h]
  | none =>
    simp only [h, Option.map_none, Option.getD_none]
    rfl

theorem deleteDead_values (f : FunctionBody) (U : Finset Nat) :
    (deleteDead f U).values = f.values := rfl

theorem deleteDead_entry (f : FunctionBody) (U : Finset Nat) :
    (deleteDead f U).entry = f.entry := rfl

theorem deleteDead_valueDef (f : FunctionBody) (U : Finset Nat) (v : Nat) :
    (deleteDead f U).valueDef v = f.valueDef v := rfl

theorem deleteDead_insts (f : FunctionBody) (U : Finset Nat) (b : Nat) :
    ((deleteDead f U).blockDef b).insts
      = ((f.blockDef b).insts).filter (fun i => decide (i ∈ U)) := by
  rw [deleteDead_blockDef]
  rfl

theorem deleteDead_params (f : FunctionBody) (U : Finset Nat) (b : Nat) :
    ((deleteDead f U).blockDef b).params
      = ((f.blockDef b).params).filter (fun p => decide (p.2 ∈ U)) := by
  rw [deleteDead_blockDef]
  rfl

theorem deleteDead_term (f : FunctionBody) (U : Finset Nat) (b : Nat) :
    ((deleteDead f U).blockDef b).terminator
      = Terminator.update_targets (pruneTarget f U) ((f.blockDef b).terminator) := by
  rw [deleteDead_blockDef]
  rfl

theorem chClosed_deleteDead (f : FunctionBody) (U V : Finset Nat) (a : Nat) :
    ChClosed (deleteDead f U) V a ↔ ChClosed f V a := Iff.rfl

def argsLenOk (f : FunctionBody) : Bool :=
  f.blocks.all (fun bd => bd.terminator.targets.all
    (fun t => decide (t.args.length ≤ (f.blockDef t.block).params.length)))

theorem argsLenOk_blockDef (f : FunctionBody) (h : argsLenOk f = true) (b : Nat) :
    ∀ t ∈ (f.blockDef b).terminator.targets,
      t.args.length ≤ (f.blockDef t.block).params.length := by
  intro t ht
  cases hb : f.blocks.get? b with
  | none =>
    unfold FunctionBody.blockDef at ht
    rw [hb] at ht
    simp [emptyBlock, Terminator.targets] at ht
  | some bd =>
    have hmem : bd ∈ f.blocks := List.get?_mem hb
    have h1 := List.all_eq_true.1 h bd hmem
    unfold FunctionBody.blockDef at ht
    rw [hb] at ht
    have h2 := List.all_eq_true.1 h1 t (by simpa using ht)
    exact of_decide_eq_true h2

theorem blockFacts_deleteDead (f : FunctionBody) (U : Finset Nat) (b : Nat)
    (hlen : ∀ b2, ∀ t ∈ (f.blockDef b2).terminator.targets,
      t.args.length ≤ (f.blockDef t.block).params.length)
    (hf : BlockFacts f U b) : BlockFacts (deleteDead f U) U b := by
  obtain ⟨hT, hC, hS, hR, hO, hP⟩ := hf
  refine ⟨?_, ?_, ?_, ?_, ?_, ?_⟩
  · intro t2 ht2 pr hpr hmem
    rw [deleteDead_term, targets_update] at ht2
    obtain ⟨t, ht, rfl⟩ := List.mem_map.1 ht2
    rw [deleteDead_params] at hpr
    have hz := removeArgs_zip_filter U t.args (f.blockDef t.block).params (hlen b t ht)
    have hpr2 : pr ∈ (t.args.zip ((f.blockDef t.block).params)).filter
        (fun q => decide (q.2.2 ∈ U)) := by
      rw [← hz]
      exact hpr
    exact hT t ht pr (List.mem_filter.1 hpr2).1 hmem
  · intro c t1 t2 hterm
    rw [deleteDead_term] at hterm
    cases hτ : (f.blockDef b).terminator with
    | CondBr c0 ta tb =>
      rw [hτ] at hterm
      simp only [Terminator.update_targets, Terminator.CondBr.injEq] at hterm
      obtain ⟨hc, -, -⟩ := hterm
      rw [← hc]
      exact hC c0 ta tb hτ
    | Br tg => rw [hτ] at hterm; simp [Terminator.update_targets] at hterm
    | Select v ts d => rw [hτ] at hterm; simp [Terminator.update_targets] at hterm
    | Return vs => rw [hτ] at hterm; simp [Terminator.update_targets] at hterm
    | Unreachable => rw [hτ] at hterm; simp [Terminator.update_targets] at hterm
    | NoneTerm => rw [hτ] at hterm; simp [Terminator.update_targets] at hterm
  · intro v ts d hterm
    rw [deleteDead_term] at hterm
    cases hτ : (f.blockDef b).terminator with
    | Select v0 ts0 d0 =>
      rw [hτ] at hterm
      simp only [Terminator.update_targets, Terminator.Select.injEq] at hterm
      obtain ⟨hv, -, -⟩ := hterm
      rw [← hv]
      exact hS v0 ts0 d0 hτ
    | Br tg => rw [hτ] at hterm; simp [Terminator.update_targets] at hterm
    | CondBr c ta tb => rw [hτ] at hterm; simp [Terminator.update_targets] at hterm
    | Return vs => rw [hτ] at hterm; simp [Terminator.update_targets] at hterm
    | Unreachable => rw [hτ] at hterm; simp [Terminator.update_targets] at hterm
    | NoneTerm => rw [hτ] at hterm; simp [Terminator.update_targets] at hterm
  · intro vs hterm
    rw [deleteDead_term] at hterm
    cases hτ : (f.blockDef b).terminator with
    | Return vs0 =>
      rw [hτ] at hterm
      simp only [Terminator.update_targets, Terminator.Return.injEq] at hterm
      rw [← hterm]
      exact hR vs0 hτ
    | Br tg => rw [hτ] at hterm; simp [Terminator.update_targets] at hterm
    | CondBr c ta tb => rw [hτ] at hterm; simp [Terminator.update_targets] at hterm
    | Select v ts d => rw [hτ] at hterm; simp [Terminator.update_targets] at hterm
    | Unreachable => rw [hτ] at hterm; simp [Terminator.update_targets] at hterm
    | NoneTerm => rw [hτ] at hterm; simp [Terminator.update_targets] at hterm
  · intro i hi op args tys hdef
    rw [deleteDead_insts] at hi
    obtain ⟨hi1, hi2⟩ := List.mem_filter.1 hi
    have hiU : i ∈ U := of_decide_eq_true hi2
    obtain ⟨-, hb⟩ := hO i hi1 op args tys hdef
    exact ⟨fun _ => hiU, fun _ a haa => hb hiU a haa⟩
  · intro i hi src idx ty hdef hmem
    rw [deleteDead_insts] at hi
    obtain ⟨hi1, -⟩ := List.mem_filter.1 hi
    exact hP i hi1 src idx ty hdef hmem

theorem blockFacts_up (f : FunctionBody) (U1 U2 : Finset Nat) (b : Nat)
    (hlen : ∀ b2, ∀ t ∈ (f.blockDef b2).terminator.targets,
      t.args.length ≤ (f.blockDef t.block).params.length)
    (h21 : U2 ⊆ U1) (hf1 : BlockFacts f U1 b)
    (hf2 : BlockFacts (deleteDead f U1) U2 b) : BlockFacts f U2 b := by
  refine ⟨?_, ?_, ?_, ?_, ?_, ?_⟩
  · intro t ht pr hpr hmem
    have hmem1 : pr.2.2 ∈ U1 := h21 hmem
    have hz := removeArgs_zip_filter U1 t.args (f.blockDef t.block).params (hlen b t ht)
    have hprf : pr ∈ (removeArgs (f.blockDef t.block).params U1 t.args).zip
        (((f.blockDef t.block).params).filter (fun p => decide (p.2 ∈ U1))) := by
      rw [hz]
      exact List.mem_filter.2 ⟨hpr, decide_eq_true hmem1⟩
    have ht2 : pruneTarget f U1 t ∈ ((deleteDead f U1).blockDef b).terminator.targets := by
      rw [deleteDead_term, targets_update]
      exact List.mem_map.2 ⟨t, ht, rfl⟩
    have hpr2 : pr ∈ (pruneTarget f U1 t).args.zip
        (((deleteDead f U1).blockDef (pruneTarget f U1 t).block).params) := by
      show pr ∈ (removeArgs (f.blockDef t.block).params U1 t.args).zip
        (((deleteDead f U1).blockDef t.block).params)
      rw [deleteDead_params]
      exact hprf
    exact hf2.1 (pruneTarget f U1 t) ht2 pr hpr2 hmem
  · intro c t1 t2 hterm
    have hterm2 : ((deleteDead f U1).blockDef b).terminator
        = Terminator.CondBr c (pruneTarget f U1 t1) (pruneTarget f U1 t2) := by
      rw [deleteDead_term, hterm]
      rfl
    exact hf2.2.1 c _ _ hterm2
  · intro v ts d hterm
    have hterm2 : ((deleteDead f U1).blockDef b).terminator
        = Terminator.Select v (ts.map (pruneTarget f U1)) (pruneTarget f U1 d) := by
      rw [deleteDead_term, hterm]
      rfl
    exact hf2.2.2.1 v _ _ hterm2
  · intro vs hterm
    have hterm2 : ((deleteDead f U1).blockDef b).terminator = Terminator.Return vs := by
      rw [deleteDead_term, hterm]
      rfl
    exact hf2.2.2.2.1 vs hterm2
  · intro i hi op args tys hdef
    constructor
    · intro hrem
      have hiU1 : i ∈ U1 := (hf1.2.2.2.2.1 i hi op args tys hdef).1 hrem
      have hi2 : i ∈ ((deleteDead f U1).blockDef b).insts := by
        rw [deleteDead_insts]
        exact List.mem_filter.2 ⟨hi, decide_eq_true hiU1⟩
      exact (hf2.2.2.2.2.1 i hi2 op args tys hdef).1 hrem
    · intro hiU2 a ha
      have hiU1 : i ∈ U1 := h21 hiU2
      have hi2 : i ∈ ((deleteDead f U1).blockDef b).insts := by
        rw [deleteDead_insts]
        exact List.mem_filter.2 ⟨hi, decide_eq_true hiU1⟩
      exact (hf2.2.2.2.2.1 i hi2 op args tys hdef).2 hiU2 a ha
  · intro i hi src idx ty hdef hiU2
    have hiU1 : i ∈ U1 := h21 hiU2
    have hi2 : i ∈ ((deleteDead f U1).blockDef b).insts := by
      rw [deleteDead_insts]
      exact List.mem_filter.2 ⟨hi, decide_eq_true hiU1⟩
    exact hf2.2.2.2.2.2 i hi2 src idx ty hdef hiU2

theorem filter_idem {α : Type} (p : α → Bool) (l : List α) :
    (l.filter p).filter p = l.filter p := by
  induction l with
  | nil => rfl
  | cons a l ih =>
    by_cases h : p a = true
    · simp [List.filter_cons, h, ih]
    · simp [List.filter_cons, h, ih]

theorem map_eq_self {α : Type} (K : α → α) (l : List α) (h : ∀ x ∈ l, K x = x) :
    l.map K = l := by
  induction l with
  | nil => rfl
  | cons a l ih =>
    simp only [List.map_cons]
    rw [h a (List.mem_cons_self a l), ih (fun x hx => h x (List.mem_cons_of_mem a hx))]

theorem clearBlocks_cons (cfg : CFGInfo) (i : Nat) (bd : BlockDef) (rest : List BlockDef) :
    clearBlocks cfg i (bd :: rest)
      = (if ((cfg.rpo_pos.get? i).getD none).isNone then clearedBlock else bd)
        :: clearBlocks cfg (i + 1) rest := rfl

theorem clearBlocks_idem (cfg : CFGInfo) :
    ∀ (i : Nat) (bs : List BlockDef),
      clearBlocks cfg i (clearBlocks cfg i bs) = clearBlocks cfg i bs := by
  intro i bs
  induction bs generalizing i with
  | nil => rfl
  | cons bd rest ih =>
    by_cases h : ((cfg.rpo_pos.get? i).getD none).isNone = true
    · rw [clearBlocks_cons, if_pos h, clearBlocks_cons, if_pos h, ih (i + 1)]
    · rw [clearBlocks_cons, if_neg h, clearBlocks_cons, if_neg h, ih (i + 1)]

theorem clearBlocks_fix_map (cfg : CFGInfo) (K : BlockDef → BlockDef)
    (hK : K clearedBlock = clearedBlock) :
    ∀ (i : Nat) (bs : List BlockDef), clearBlocks cfg i bs = bs →
      clearBlocks cfg i (bs.map K) = bs.map K := by
  intro i bs
  induction bs generalizing i with
  | nil => intro _; rfl
  | cons bd rest ih =>
    intro h
    rw [clearBlocks_cons] at h
    injection h with h1 h2
    rw [List.map_cons, clearBlocks_cons, ih (i + 1) h2]
    by_cases hc : ((cfg.rpo_pos.get? i).getD none).isNone = true
    · rw [if_pos hc]
      rw [if_pos hc] at h1
      rw [← h1, hK]
    · rw [if_neg hc]

theorem clearUnreachable_deleteDead (cfg : CFGInfo) (f : FunctionBody) (U : Finset Nat) :
    clearUnreachable cfg (deleteDead (clearUnreachable cfg f) U)
      = deleteDead (clearUnreachable cfg f) U := by
  show { deleteDead (clearUnreachable cfg f) U with
    blocks := clearBlocks cfg 0 (deleteDead (clearUnreachable cfg f) U).blocks } = _
  have hb : clearBlocks cfg 0 (deleteDead (clearUnreachable cfg f) U).blocks
      = (deleteDead (clearUnreachable cfg f) U).blocks := by
    show clearBlocks cfg 0 (((clearBlocks cfg 0 f.blocks).map
          (deleteDeadBlock (clearUnreachable cfg f) U)).map (filterParams U))
        = ((clearBlocks cfg 0 f.blocks).map
          (deleteDeadBlock (clearUnreachable cfg f) U)).map (filterParams U)
    rw [List.map_map]
    exact clearBlocks_fix_map cfg
      (filterParams U ∘ deleteDeadBlock (clearUnreachable cfg f) U) rfl 0
      (clearBlocks cfg 0 f.blocks) (clearBlocks_idem cfg 0 f.blocks)
  rw [hb]

theorem deleteDead_idem (f : FunctionBody) (U : Finset Nat)
    (hlen : ∀ b, ∀ t ∈ (f.blockDef b).terminator.targets,
      t.args.length ≤ (f.blockDef t.block).params.length) :
    deleteDead (deleteDead f U) U = deleteDead f U := by
  have helem : ∀ bd2 ∈ (deleteDead f U).blocks,
      filterParams U (deleteDeadBlock (deleteDead f U) U bd2) = bd2 := by
    intro bd2 hbd2
    have hbd2' : bd2 ∈ (f.blocks.map (deleteDeadBlock f U)).map (filterParams U) := hbd2
    obtain ⟨bd1, hbd1, hbd2eq⟩ := List.mem_map.1 hbd2'
    obtain ⟨bd, hbd, hbd1eq⟩ := List.mem_map.1 hbd1
    obtain ⟨n, hn⟩ := List.get_of_mem hbd
    have hbdn : f.blockDef n = bd := by
      unfold FunctionBody.blockDef
      rw [List.get?_eq_get n.2, hn]
      rfl
    rw [← hbd2eq, ← hbd1eq]
    simp only [filterParams, deleteDeadBlock]
    rw [filter_idem, filter_idem, update_targets_comp]
    refine congrArg (BlockDef.mk _ _) ?_
    apply update_targets_congr
    intro t ht
    have htf : t ∈ (f.blockDef ↑n).terminator.targets := by rw [hbdn]; exact ht
    have hlen' := hlen ↑n t htf
    simp only [pruneTarget]
    rw [deleteDead_params]
    rw [removeArgs_idem U t.args (f.blockDef t.block).params hlen']
  show { deleteDead f U with
    blocks := ((deleteDead f U).blocks.map (deleteDeadBlock (deleteDead f U) U)).map
      (filterParams U) } = deleteDead f U
  rw [List.map_map]
  have h2 := map_eq_self (filterParams U ∘ deleteDeadBlock (deleteDead f U) U)
    (deleteDead f U).blocks (fun x hx => helem x hx)
  rw [h2]

theorem run_some_eq (fuel : Nat) (f : FunctionBody) (cfg : CFGInfo) (f2 : FunctionBody)
    (h : run fuel f cfg = some f2) :
    ∃ U, dceLoop (clearUnreachable cfg f) cfg fuel
        ((((clearUnreachable cfg f).blockDef f.entry).params.map Prod.snd).toFinset) = some U
      ∧ f2 = deleteDead (clearUnreachable cfg f) U := by
  unfold run at h
  cases hdl : dceLoop (clearUnreachable cfg f) cfg fuel
      ((((clearUnreachable cfg f).blockDef f.entry).params.map Prod.snd).toFinset) with
  | none =>
    rw [hdl] at h
    cases h
  | some U =>
    rw [hdl] at h
    simp only at h
    by_cases hv : validBody (deleteDead (clearUnreachable cfg f) U) = true
    · rw [if_pos hv] at h
      injection h with h
      exact ⟨U, rfl, h.symm⟩
    · rw [if_neg hv] at h
      cases h

/-- C9: `dce::run` is idempotent.  On any function body whose cleared form
does not over-apply branch args (the source would panic indexing
`params[i]` otherwise), a completed second run returns exactly the first
run's output: the used-set computed the second time coincides with the
first one, so all three deletion passes are no-ops. -/
theorem dce_run_idempotent (f : FunctionBody) (cfg : CFGInfo) (fuel1 fuel2 : Nat)
    (f2 f3 : FunctionBody)
    (hwf : argsLenOk (clearUnreachable cfg f) = true)
    (h1 : run fuel1 f cfg = some f2) (h2 : run fuel2 f2 cfg = some f3) : f3 = f2 := by
  obtain ⟨U1, hd1, hf2⟩ := run_some_eq fuel1 f cfg f2 h1
  obtain ⟨U2, hd2, hf3⟩ := run_some_eq fuel2 f2 cfg f3 h2
  have hcl : clearUnreachable cfg f2 = f2 := by
    rw [hf2]
    exact clearUnreachable_deleteDead cfg f U1
  rw [hcl] at hd2 hf3
  have hentry : f2.entry = f.entry := by rw [hf2]; rfl
  rw [hentry] at hd2
  have hlen := argsLenOk_blockDef (clearUnreachable cfg f) hwf
  have hfix1 := dceLoop_fix (clearUnreachable cfg f) cfg fuel1 _ U1 hd1
  have hseed1 : ((((clearUnreachable cfg f).blockDef f.entry).params.map
      Prod.snd).toFinset : Finset Nat) ⊆ U1 := hfix1.1
  have hfilter : ((clearUnreachable cfg f).blockDef f.entry).params.filter
      (fun p => decide (p.2 ∈ U1)) = ((clearUnreachable cfg f).blockDef f.entry).params := by
    rw [List.filter_eq_self]
    intro p hp
    apply decide_eq_true
    apply hseed1
    rw [List.mem_toFinset]
    exact List.mem_map.2 ⟨p, hp, rfl⟩
  have hseedeq : (((f2.blockDef f.entry).params.map Prod.snd).toFinset : Finset Nat)
      = ((((clearUnreachable cfg f).blockDef f.entry).params.map Prod.snd).toFinset) := by
    rw [hf2, deleteDead_params, hfilter]
  rw [hseedeq] at hd2
  have hfix2 := dceLoop_fix f2 cfg fuel2 _ U2 hd2
  have facts1 : ∀ b ∈ cfg.rpo, BlockFacts (clearUnreachable cfg f) U1 b := by
    intro b hb
    apply scan_block_fix_facts
    have h := hfix1.2
    unfold scanAll at h
    exact foldl_mem_extract (scan_block (clearUnreachable cfg f))
      (scan_block_mono (clearUnreachable cfg f)) (scan_block_flag (clearUnreachable cfg f))
      cfg.rpo.reverse U1 h b (List.mem_reverse.2 hb)
  have facts2 : ∀ b ∈ cfg.rpo, BlockFacts f2 U2 b := by
    intro b hb
    apply scan_block_fix_facts
    have h := hfix2.2
    unfold scanAll at h
    exact foldl_mem_extract (scan_block f2) (scan_block_mono f2) (scan_block_flag f2)
      cfg.rpo.reverse U2 h b (List.mem_reverse.2 hb)
  have hU21 : U2 ⊆ U1 := by
    refine dceLoop_bound f2 cfg U1 ?_ fuel2 _ U2 hseed1 hd2
    intro b hb
    apply scan_block_bound
    rw [hf2]
    exact blockFacts_deleteDead (clearUnreachable cfg f) U1 b hlen (facts1 b hb)
  have hU12 : U1 ⊆ U2 := by
    refine dceLoop_bound (clearUnreachable cfg f) cfg U2 ?_ fuel1 _ U1 hfix2.1 hd1
    intro b hb
    apply scan_block_bound
    refine blockFacts_up (clearUnreachable cfg f) U1 U2 b hlen hU21 (facts1 b hb) ?_
    rw [← hf2]
    exact facts2 b hb
  have hU : U1 = U2 := Finset.Subset.antisymm hU12 hU21
  rw [hf3, ← hU, hf2]
  exact deleteDead_idem (clearUnreachable cfg f) U1 hlen

/-- C9 witness: on a one-block body `run` completes with fuel 2, and running
it again returns the same body. -/
theorem dce_run_idempotent_witness :
    argsLenOk (clearUnreachable (CFGInfo.mk [0] [some 0])
        (FunctionBody.mk 0 [BlockDef.mk [] [] (Terminator.Return [])] [])) = true
    ∧ (FunctionBody.mk 0 [BlockDef.mk [] [] (Terminator.Return [])] [] : FunctionBody)
      = FunctionBody.mk 0 [BlockDef.mk [] [] (Terminator.Return [])] [] :=
  ⟨by decide,
    dce_run_idempotent (FunctionBody.mk 0 [BlockDef.mk [] [] (Terminator.Return [])] [])
      (CFGInfo.mk [0] [some 0]) 2 2
      (FunctionBody.mk 0 [BlockDef.mk [] [] (Terminator.Return [])] [])
      (FunctionBody.mk 0 [BlockDef.mk [] [] (Terminator.Return [])] [])
      (by decide) (by decide) (by decide)⟩

end Weval
